import Mathlib

/-
Verification of the priority-queue and ordered-tree structures of the
repository (src/src/heaps): the array binary heap (binary_heap.c), the
binary search tree (binary_tree.c), the binomial heap (binomial_heap.c),
the leftist heap (leftist_heap.c), the skew heap (skew_heap.c) and the
treap (treap.c).

Modelling conventions:
  - C `int` keys are modelled as `Int` (keys are only ever compared,
    never overflowed); `size_t` indices and degrees as `Nat`.
  - `NULL` pointers become `Option`/`nil` constructors.
  - A failed `assert` (a loud abort), a dereference of a null pointer
    (undefined behaviour), an access to a freed or unallocated node, and
    exhaustion of loop fuel are the four observations of `CErr`.
  - The binomial heap and the persistent leftist/skew merges are modelled
    at the pointer level: memory is a list of `Option` node records
    indexed by address, allocation appends, `free` stores `none`.
    C loops take an explicit fuel counting loop iterations; a loop exit
    whose condition needs no further iteration consumes no fuel, so a
    result of `fuelOut` for every fuel witnesses non-termination.

The file is laid out with all definitions first, followed by the lemmas
and the claim theorems.
-/

namespace Algo

/-- Observations of an aborted, crashed or non-terminating execution:
`assertFail` is a failed C `assert` (loud abort), `nullDeref` a
dereference of a null pointer (undefined behaviour), `badPtr` an access
to a freed or unallocated node, `fuelOut` exhaustion of the loop fuel. -/
inductive CErr where
  | assertFail
  | nullDeref
  | badPtr
  | fuelOut
deriving DecidableEq, Repr

/-! ## binary_heap.c — ArrayHeap -/

/-- binary_heap.c `BinaryHeap`: `data` holds the `size` stored elements
(the separate `capacity` field only governs reallocation and is dropped),
`is_min` is the min/max ordering flag. -/
structure ArrayHeap where
  data : List Int
  is_min : Bool
deriving DecidableEq, Repr

/-- binary_heap.c `heap_prefers`: true when `a` has higher priority than
`b` under the configured ordering (`a < b` for min, `a > b` for max). -/
def heap_prefers (is_min : Bool) (a b : Int) : Bool :=
  if is_min then a < b else a > b

/-- binary_heap.c `heap_swap` applied to indices `i`,`j` of the buffer. -/
def heap_swap (d : List Int) (i j : Nat) : List Int :=
  (d.set i (d.getD j 0)).set j (d.getD i 0)

/-- First step of `heap_sift_down`'s best-child selection:
`best = idx; if (l < n && heap_prefers(h, h->data[l], h->data[best])) best = l;`
with `l = 2*idx+1`. -/
def sift_best1 (is_min : Bool) (d : List Int) (idx : Nat) : Nat :=
  if 2*idx+1 < d.length && heap_prefers is_min (d.getD (2*idx+1) 0) (d.getD idx 0)
  then 2*idx+1 else idx

/-- Second step of the best-child selection:
`if (r < n && heap_prefers(h, h->data[r], h->data[best])) best = r;`
with `r = 2*idx+2`. -/
def sift_best (is_min : Bool) (d : List Int) (idx : Nat) : Nat :=
  if 2*idx+2 < d.length &&
     heap_prefers is_min (d.getD (2*idx+2) 0) (d.getD (sift_best1 is_min d idx) 0)
  then 2*idx+2 else sift_best1 is_min d idx

/-- binary_heap.c `heap_sift_down`: repeatedly swap index `idx` with its
preferred child until neither child is preferred. -/
def heap_sift_down (is_min : Bool) (d : List Int) (idx : Nat) : List Int :=
  if h : sift_best is_min d idx = idx then d
  else heap_sift_down is_min (heap_swap d idx (sift_best is_min d idx))
        (sift_best is_min d idx)
termination_by d.length - idx
decreasing_by
  have hlen : (heap_swap d idx (sift_best is_min d idx)).length = d.length := by
    simp [heap_swap]
  have hspec1 : sift_best1 is_min d idx = idx ∨
      (idx < sift_best1 is_min d idx ∧ sift_best1 is_min d idx < d.length) := by
    unfold sift_best1
    split
    · rename_i h1
      simp only [Bool.and_eq_true, decide_eq_true_eq] at h1
      right; omega
    · left; rfl
  have hspec : sift_best is_min d idx = idx ∨
      (idx < sift_best is_min d idx ∧ sift_best is_min d idx < d.length) := by
    unfold sift_best
    split
    · rename_i h1
      simp only [Bool.and_eq_true, decide_eq_true_eq] at h1
      right; omega
    · exact hspec1
  rcases hspec with h1 | h1
  · exact absurd h1 h
  · rw [hlen]; omega

/-- binary_heap.c `heap_sift_up`: swap toward the root while the element
is preferred over its parent `PARENT(i) = (i-1)/2`. -/
def heap_sift_up (is_min : Bool) (d : List Int) (idx : Nat) : List Int :=
  if 0 < idx then
    if heap_prefers is_min (d.getD idx 0) (d.getD ((idx-1)/2) 0) then
      heap_sift_up is_min (heap_swap d idx ((idx-1)/2)) ((idx-1)/2)
    else d
  else d
termination_by idx
decreasing_by omega

/-- binary_heap.c `heap_create`: empty heap (the initial capacity only
pre-allocates the buffer and is dropped from the model). -/
def heap_create (is_min : Bool) : ArrayHeap :=
  { data := [], is_min := is_min }

/-- binary_heap.c `heap_push`: append then sift up (`heap_resize` only
reallocates the buffer and is invisible at this level). -/
def heap_push (h : ArrayHeap) (value : Int) : ArrayHeap :=
  { h with data := heap_sift_up h.is_min (h.data ++ [value]) h.data.length }

/-- binary_heap.c `heap_peek`: `assert(h->size > 0)`, then the root. -/
def heap_peek (h : ArrayHeap) : Except CErr Int :=
  if 0 < h.data.length then .ok (h.data.getD 0 0) else .error .assertFail

/-- binary_heap.c `heap_pop`: `assert(h->size > 0)`; remove the root,
move the last element to the root and sift down. -/
def heap_pop (h : ArrayHeap) : Except CErr (Int × ArrayHeap) :=
  if 0 < h.data.length then
    if 1 < h.data.length then
      let d1 := (h.data.take (h.data.length - 1)).set 0 (h.data.getD (h.data.length - 1) 0)
      .ok (h.data.getD 0 0, { h with data := heap_sift_down h.is_min d1 0 })
    else .ok (h.data.getD 0 0, { h with data := [] })
  else .error .assertFail

/-- Floyd loop of `heap_build_from_array`:
`for (i = PARENT(n-1); i >= 0; --i) heap_sift_down(h, i);` —
`heap_build_loop is_min d i` runs the sift-downs at `i, i-1, ..., 0`. -/
def heap_build_loop (is_min : Bool) (d : List Int) : Nat → List Int
  | 0 => heap_sift_down is_min d 0
  | i+1 => heap_build_loop is_min (heap_sift_down is_min d (i+1)) i

/-- binary_heap.c `heap_build_from_array`: copy the array, then sift down
from the last parent `PARENT(n-1) = (n-2)/2` to the root (only when
`n > 1`). -/
def heap_build_from_array (arr : List Int) (is_min : Bool) : ArrayHeap :=
  if 1 < arr.length then
    { data := heap_build_loop is_min arr ((arr.length - 2)/2), is_min := is_min }
  else
    { data := arr, is_min := is_min }

/-- binary_heap.c `heap_merge` (non-destructive): `NULL` inputs are
rebuilt from the other heap; otherwise
`assert(a->is_min == b->is_min)`, then build from the concatenated
buffers. The inputs are only read (two `memcpy`s out of them). -/
def heap_merge : Option ArrayHeap → Option ArrayHeap → Except CErr (Option ArrayHeap)
  | none, none => .ok none
  | none, some b => .ok (some (heap_build_from_array b.data b.is_min))
  | some a, none => .ok (some (heap_build_from_array a.data a.is_min))
  | some a, some b =>
    if a.is_min = b.is_min then
      .ok (some (heap_build_from_array (a.data ++ b.data) a.is_min))
    else .error .assertFail

/-- binary_heap.c `heap_merge_destroy`: same computation as `heap_merge`;
it additionally frees the two input structures, which is pure memory
management and leaves no further observable state here. -/
def heap_merge_destroy : Option ArrayHeap → Option ArrayHeap → Except CErr (Option ArrayHeap)
  | none, none => .ok none
  | none, some b => .ok (some (heap_build_from_array b.data b.is_min))
  | some a, none => .ok (some (heap_build_from_array a.data a.is_min))
  | some a, some b =>
    if a.is_min = b.is_min then
      .ok (some (heap_build_from_array (a.data ++ b.data) a.is_min))
    else .error .assertFail

/-- Store of live ArrayHeaps, addressed by index, for the frame statement
about the non-destructive merge: `heap_merge` allocates a fresh result
heap (modelled as appending to the store) and never writes through its
two input pointers. -/
def heap_merge_st (s : List ArrayHeap) (i j : Nat) : Except CErr (List ArrayHeap × Nat) :=
  match s.get? i, s.get? j with
  | some a, some b =>
    if a.is_min = b.is_min then
      .ok (s ++ [heap_build_from_array (a.data ++ b.data) a.is_min], s.length)
    else .error .assertFail
  | _, _ => .error .badPtr

/-! ## binary_tree.c — baseline binary search tree -/

/-- binary_tree.c `Node`: `{ key, left, right }`, `nil` is `NULL`. -/
inductive Node where
  | nil
  | node (key : Int) (left : Node) (right : Node)
deriving DecidableEq, Repr

/-- binary_tree.c `bst_insert`: descend by comparison, create a leaf in
the empty slot; an already-present key leaves the tree unchanged. -/
def bst_insert (root : Node) (key : Int) : Node :=
  match root with
  | .nil => .node key .nil .nil
  | .node k l r =>
    if key < k then .node k (bst_insert l key) r
    else if key > k then .node k l (bst_insert r key)
    else .node k l r

/-- binary_tree.c `bst_search_recursive`: returns the found subtree
(the C function returns the node pointer; `nil` is `NULL`). -/
def bst_search_recursive (root : Node) (key : Int) : Node :=
  match root with
  | .nil => .nil
  | .node k l r =>
    if k = key then .node k l r
    else if key < k then bst_search_recursive l key
    else bst_search_recursive r key

/-- binary_tree.c `bst_search_iterative`: the `while (cur)` loop as a tail
recursion on the current pointer; same observations as the C loop. -/
def bst_search_iterative (root : Node) (key : Int) : Node :=
  match root with
  | .nil => .nil
  | .node k l r =>
    if k = key then .node k l r
    else if key < k then bst_search_iterative l key
    else bst_search_iterative r key

/-- binary_tree.c `bst_min` (key of the leftmost node). The C function
asserts a non-`NULL` argument; its only caller inside the library,
`bst_delete`, passes the non-empty right subtree, so the `nil` branch is
unreachable there and its value is irrelevant. -/
def bst_min_key (root : Node) : Int :=
  match root with
  | .nil => 0
  | .node k .nil _ => k
  | .node _ l _ => bst_min_key l

/-- binary_tree.c `bst_delete`: leaf — drop; one child — splice the
child in; two children — copy the key of the in-order successor
(`bst_min` of the right subtree) and delete it from the right subtree. -/
def bst_delete (root : Node) (key : Int) : Node :=
  match root with
  | .nil => .nil
  | .node k l r =>
    if key < k then .node k (bst_delete l key) r
    else if key > k then .node k l (bst_delete r key)
    else
      match l, r with
      | .nil, .nil => .nil
      | .nil, .node rk rl rr => .node rk rl rr
      | .node lk ll lr, .nil => .node lk ll lr
      | .node lk ll lr, .node rk rl rr =>
        .node (bst_min_key (.node rk rl rr)) (.node lk ll lr)
          (bst_delete (.node rk rl rr) (bst_min_key (.node rk rl rr)))

/-- binary_tree.c `bst_inorder`: the in-order key sequence (the C
function feeds a visitor callback; the list is the visit sequence). -/
def bkeys : Node → List Int
  | .nil => []
  | .node k l r => bkeys l ++ k :: bkeys r

/-- Strict BST invariant: at every node, all keys of the left subtree are
below the node key and all keys of the right subtree above it. -/
def IsSBT : Node → Prop
  | .nil => True
  | .node k l r =>
      (∀ y ∈ bkeys l, y < k) ∧ (∀ y ∈ bkeys r, k < y) ∧ IsSBT l ∧ IsSBT r

/-- Operations of the binary_tree.c interface used to describe an
arbitrary finite insert/delete history. -/
inductive BstOp where
  | ins (key : Int)
  | del (key : Int)

/-- Replay a history of `bst_insert`/`bst_delete` calls on the empty
tree. -/
def bstRun (ops : List BstOp) : Node :=
  ops.foldl (fun t op => match op with
    | .ins k => bst_insert t k
    | .del k => bst_delete t k) .nil

/-! ## treap.c — randomized BST (priorities modelled as explicit inputs:
`treap_new_node` draws `rand()`, which we pass in as a parameter) -/

/-- treap.c `TreapNode`: `{ key, priority, left, right }`. -/
inductive Treap where
  | nil
  | node (key : Int) (priority : Int) (left : Treap) (right : Treap)
deriving DecidableEq, Repr

/-- In-order key sequence of a treap (treap.c `treap_inorder`). -/
def tkeys : Treap → List Int
  | .nil => []
  | .node k _ l r => tkeys l ++ k :: tkeys r

/-- All priorities stored in a treap. -/
def tprios : Treap → List Int
  | .nil => []
  | .node _ p l r => p :: (tprios l ++ tprios r)

/-- treap.c `treap_split`: first component takes the keys `< key`, second
the keys `>= key`; on `key <= t->key` the node goes right and its left
child is re-split, symmetrically otherwise. -/
def treap_split (t : Treap) (key : Int) : Treap × Treap :=
  match t with
  | .nil => (.nil, .nil)
  | .node k p l r =>
    if key ≤ k then
      let s := treap_split l key
      (s.1, .node k p s.2 r)
    else
      let s := treap_split r key
      (.node k p l s.1, s.2)

/-- treap.c `treap_merge`: root is the side with the higher priority
(strictly higher priority on the left keeps the left root). -/
def treap_merge : Treap → Treap → Treap
  | .nil, r => r
  | .node lk lp ll lr, .nil => .node lk lp ll lr
  | .node lk lp ll lr, .node rk rp rl rr =>
    if lp > rp then
      .node lk lp ll (treap_merge lr (.node rk rp rl rr))
    else
      .node rk rp (treap_merge (.node lk lp ll lr) rl) rr
termination_by l r => sizeOf l + sizeOf r

/-- treap.c `treap_insert`: split at `key`, wrap `key` in a fresh node
with the drawn `priority`, then merge the three parts. -/
def treap_insert (root : Treap) (key priority : Int) : Treap :=
  let s := treap_split root key
  treap_merge (treap_merge s.1 (.node key priority .nil .nil)) s.2

/-- treap.c `treap_remove`: BST descent; on a key match the node is
replaced by the merge of its children. -/
def treap_remove (root : Treap) (key : Int) : Treap :=
  match root with
  | .nil => .nil
  | .node k p l r =>
    if k = key then treap_merge l r
    else if key < k then .node k p (treap_remove l key) r
    else .node k p l (treap_remove r key)

/-- treap.c `treap_search`: pure BST descent ignoring priorities. -/
def treap_search (root : Treap) (key : Int) : Bool :=
  match root with
  | .nil => false
  | .node k _ l r =>
    if key = k then true
    else if key < k then treap_search l key
    else treap_search r key

/-- Weak BST bound: at every node, left keys are `<=` the node key and
right keys `>=` it.  This is the invariant the treap operations actually
maintain once duplicate keys have been inserted. -/
def TB : Treap → Prop
  | .nil => True
  | .node k _ l r =>
      (∀ y ∈ tkeys l, y ≤ k) ∧ (∀ y ∈ tkeys r, k ≤ y) ∧ TB l ∧ TB r

/-- Strict BST invariant on keys (all keys distinct). -/
def TSBT : Treap → Prop
  | .nil => True
  | .node k _ l r =>
      (∀ y ∈ tkeys l, y < k) ∧ (∀ y ∈ tkeys r, k < y) ∧ TSBT l ∧ TSBT r

/-- Max-heap invariant on priorities: every priority below a node is
`<=` the node's priority. -/
def MaxHeapT : Treap → Prop
  | .nil => True
  | .node _ p l r =>
      (∀ q ∈ tprios l, q ≤ p) ∧ (∀ q ∈ tprios r, q ≤ p) ∧ MaxHeapT l ∧ MaxHeapT r

/-- Operations of the treap.c interface; `ins` carries the priority that
`rand()` returned for this insertion. -/
inductive TreapOp where
  | ins (key priority : Int)
  | rem (key : Int)

/-- Replay a history of `treap_insert`/`treap_remove` calls on the empty
treap. -/
def treapRun (ops : List TreapOp) : Treap :=
  ops.foldl (fun t op => match op with
    | .ins k p => treap_insert t k p
    | .rem k => treap_remove t k) .nil

/-- Decidability of the treap invariants, for concrete witnesses. -/
def decTSBT : (t : Treap) → Decidable (TSBT t)
  | .nil => isTrue trivial
  | .node k p l r =>
    letI := decTSBT l
    letI := decTSBT r
    decidable_of_iff
      ((∀ y ∈ tkeys l, y < k) ∧ (∀ y ∈ tkeys r, k < y) ∧ TSBT l ∧ TSBT r)
      Iff.rfl

instance : DecidablePred TSBT := decTSBT

def decMaxHeapT : (t : Treap) → Decidable (MaxHeapT t)
  | .nil => isTrue trivial
  | .node k p l r =>
    letI := decMaxHeapT l
    letI := decMaxHeapT r
    decidable_of_iff
      ((∀ q ∈ tprios l, q ≤ p) ∧ (∀ q ∈ tprios r, q ≤ p) ∧ MaxHeapT l ∧ MaxHeapT r)
      Iff.rfl

instance : DecidablePred MaxHeapT := decMaxHeapT

/-! ## leftist_heap.c — leftist heap (value level) -/

/-- leftist_heap.c `LeftistNode`: `{ key, npl, left, right }`. -/
inductive LTree where
  | nil
  | node (key : Int) (npl : Int) (left : LTree) (right : LTree)
deriving DecidableEq, Repr

/-- leftist_heap.c `npl`: the stored field, `-1` for `NULL`. -/
def npl : LTree → Int
  | .nil => -1
  | .node _ np _ _ => np

/-- All keys stored in a leftist heap. -/
def lkeys : LTree → List Int
  | .nil => []
  | .node k _ l r => k :: (lkeys l ++ lkeys r)

/-- leftist_heap.c `leftist_merge`: if either side is absent return the
other; make the smaller key (swapping when `b->key < a->key`) the root;
merge its right child with the other tree; swap the children when
`npl(left) < npl(right)`; finally store `npl = 1 + npl(right)`. -/
def leftist_merge : LTree → LTree → LTree
  | .nil, b => b
  | .node ka na la ra, .nil => .node ka na la ra
  | .node ka na la ra, .node kb nb lb rb =>
    if kb < ka then
      let m := leftist_merge rb (.node ka na la ra)
      if npl lb < npl m then .node kb (1 + npl lb) m lb
      else .node kb (1 + npl m) lb m
    else
      let m := leftist_merge ra (.node kb nb lb rb)
      if npl la < npl m then .node ka (1 + npl la) m la
      else .node ka (1 + npl m) la m
termination_by a b => sizeOf a + sizeOf b

/-- leftist_heap.c `leftist_insert`: merge with a fresh single node
(key, npl 0, no children). -/
def leftist_insert (heap : LTree) (key : Int) : LTree :=
  leftist_merge heap (.node key 0 .nil .nil)

/-- leftist_heap.c `leftist_find_min`: `assert(heap)`, then the root
key. -/
def leftist_find_min (heap : LTree) : Except CErr Int :=
  match heap with
  | .nil => .error .assertFail
  | .node k _ _ _ => .ok k

/-- leftist_heap.c `leftist_delete_min`: `assert(heap)`, then merge the
two children (the old root is freed). -/
def leftist_delete_min (heap : LTree) : Except CErr LTree :=
  match heap with
  | .nil => .error .assertFail
  | .node _ _ l r => .ok (leftist_merge l r)

/-- Structural npl/leftist invariant of leftist_heap.c: at every node the
stored `npl` equals `1 + min (npl left) (npl right)` and
`npl right <= npl left`. -/
def LValid : LTree → Prop
  | .nil => True
  | .node _ np l r =>
      np = 1 + min (npl l) (npl r) ∧ npl r ≤ npl l ∧ LValid l ∧ LValid r

/-- Min-heap order on keys of a leftist heap. -/
def LHeap : LTree → Prop
  | .nil => True
  | .node k _ l r =>
      (∀ y ∈ lkeys l, k ≤ y) ∧ (∀ y ∈ lkeys r, k ≤ y) ∧ LHeap l ∧ LHeap r

def decLValid : (t : LTree) → Decidable (LValid t)
  | .nil => isTrue trivial
  | .node _ np l r =>
    letI := decLValid l
    letI := decLValid r
    decidable_of_iff
      (np = 1 + min (npl l) (npl r) ∧ npl r ≤ npl l ∧ LValid l ∧ LValid r)
      Iff.rfl

instance : DecidablePred LValid := decLValid

def decLHeap : (t : LTree) → Decidable (LHeap t)
  | .nil => isTrue trivial
  | .node k _ l r =>
    letI := decLHeap l
    letI := decLHeap r
    decidable_of_iff
      ((∀ y ∈ lkeys l, k ≤ y) ∧ (∀ y ∈ lkeys r, k ≤ y) ∧ LHeap l ∧ LHeap r)
      Iff.rfl

instance : DecidablePred LHeap := decLHeap

/-! ## skew_heap.c — skew heap (value level) -/

/-- skew_heap.c `SkewNode`: `{ key, left, right }`. -/
inductive STree where
  | nil
  | node (key : Int) (left : STree) (right : STree)
deriving DecidableEq, Repr

/-- skew_heap.c `skew_merge`: smaller key (swapping when
`b->key < a->key`) becomes the root, its right child is merged with the
other tree, then the children are swapped unconditionally. -/
def skew_merge : STree → STree → STree
  | .nil, b => b
  | .node ka la ra, .nil => .node ka la ra
  | .node ka la ra, .node kb lb rb =>
    if kb < ka then .node kb (skew_merge rb (.node ka la ra)) lb
    else .node ka (skew_merge ra (.node kb lb rb)) la
termination_by a b => sizeOf a + sizeOf b

/-- skew_heap.c `skew_insert`. -/
def skew_insert (heap : STree) (key : Int) : STree :=
  skew_merge heap (.node key .nil .nil)

/-- skew_heap.c `skew_find_min`: `assert(heap)`, then the root key. -/
def skew_find_min (heap : STree) : Except CErr Int :=
  match heap with
  | .nil => .error .assertFail
  | .node k _ _ => .ok k

/-- skew_heap.c `skew_delete_min`: `assert(heap)`, then merge of the two
children. -/
def skew_delete_min (heap : STree) : Except CErr STree :=
  match heap with
  | .nil => .error .assertFail
  | .node _ l r => .ok (skew_merge l r)

/-! ## binomial_heap.c — pointer-level model

The binomial heap is modelled at the pointer level because its merge
mutates `sibling`/`child`/`parent` links in place and can alias nodes:
memory is a list of `Option BNode` records indexed by address,
allocation appends, `free` stores `none`. -/

/-- binomial_heap.c `BinomialNode`:
`{ key, degree, parent, child, sibling }`; pointer fields hold addresses
(`none` = NULL). -/
structure BNode where
  key : Int
  degree : Nat
  parent : Option Nat
  child : Option Nat
  sibling : Option Nat
deriving DecidableEq, Repr

/-- Memory of binomial nodes. -/
abbrev BMem := List (Option BNode)

/-- Read a node; freed (`none`) or unallocated addresses give `badPtr`. -/
def bget (m : BMem) (p : Nat) : Except CErr BNode :=
  match m.get? p with
  | some (some n) => .ok n
  | _ => .error .badPtr

/-- Write a node record back. -/
def bset (m : BMem) (p : Nat) (n : BNode) : BMem := m.set p (some n)

/-- Write target of the double pointer `pos` in `merge_roots`: the local
`head` variable, or the `sibling` field of the previously linked node. -/
inductive Loc where
  | head
  | sib (p : Nat)

/-- Perform `*pos = v` for `merge_roots`: returns the updated memory and
the (possibly updated) local `head`. -/
def writeLoc (m : BMem) (hd : Option Nat) (loc : Loc) (v : Option Nat) :
    Except CErr (BMem × Option Nat) :=
  match loc with
  | .head => .ok (m, v)
  | .sib p => do
    let n ← bget m p
    .ok (bset m p { n with sibling := v }, hd)

/-- Loop of binomial_heap.c `merge_roots` (`while (a && b)`), one fuel
per iteration; the final `*pos = a ? a : b` after the loop consumes no
fuel. Reads and writes happen in C statement order (`*pos = a` before
`a = a->sibling`). -/
def mr_loop (fuel : Nat) (m : BMem) (hd : Option Nat) (pos : Loc)
    (a b : Option Nat) : Except CErr (BMem × Option Nat) :=
  match a, b with
  | some pa, some pb =>
    (match fuel with
     | 0 => .error .fuelOut
     | fuel+1 => do
       let na ← bget m pa
       let nb ← bget m pb
       if na.degree ≤ nb.degree then do
         let r ← writeLoc m hd pos (some pa)
         let na1 ← bget r.1 pa
         mr_loop fuel r.1 r.2 (.sib pa) na1.sibling b
       else do
         let r ← writeLoc m hd pos (some pb)
         let nb1 ← bget r.1 pb
         mr_loop fuel r.1 r.2 (.sib pb) a nb1.sibling)
  | _, _ => do
    let r ← writeLoc m hd pos (if a.isSome then a else b)
    .ok r

/-- binomial_heap.c `merge_roots`: `NULL` shortcuts, then the merge
loop. -/
def merge_roots (fuel : Nat) (m : BMem) (a b : Option Nat) :
    Except CErr (BMem × Option Nat) :=
  match a, b with
  | none, b => .ok (m, b)
  | some pa, none => .ok (m, some pa)
  | some pa, some pb => mr_loop fuel m none .head (some pa) (some pb)

/-- binomial_heap.c `binomial_link`: the root with the larger key
becomes the leftmost child of the other; the four field writes happen in
C statement order (`b->parent = a; b->sibling = a->child; a->child = b;
a->degree++`). -/
def binomial_link (m : BMem) (a b : Nat) : Except CErr (BMem × Nat) := do
  let na ← bget m a
  let nb ← bget m b
  let (a, b) := if nb.key < na.key then (b, a) else (a, b)
  let nb1 ← bget m b
  let m1 := bset m b { nb1 with parent := some a }
  let na1 ← bget m1 a
  let nb2 ← bget m1 b
  let m2 := bset m1 b { nb2 with sibling := na1.child }
  let na2 ← bget m2 a
  let m3 := bset m2 a { na2 with child := some b }
  let na3 ← bget m3 a
  .ok (bset m3 a { na3 with degree := na3.degree + 1 }, a)

/-- Consolidation loop of binomial_heap.c `binomial_merge`
(`while (next)`), one fuel per iteration; `prev`, `curr`, `next` as in
the C code, `hd` is `h->head`. -/
def bm_loop (fuel : Nat) (m : BMem) (hd : Option Nat) (prev : Option Nat)
    (curr : Nat) (next : Option Nat) : Except CErr (BMem × Option Nat) :=
  match next with
  | none => .ok (m, hd)
  | some nx =>
    match fuel with
    | 0 => .error .fuelOut
    | fuel+1 => do
      let ncurr ← bget m curr
      let nnext ← bget m nx
      let look ← (match nnext.sibling with
        | none => Except.ok false
        | some ns => do
          let nns ← bget m ns
          Except.ok (nns.degree == ncurr.degree))
      if ncurr.degree != nnext.degree || look then do
        let nc ← bget m nx
        bm_loop fuel m hd (some curr) nx nc.sibling
      else do
        let r ← binomial_link m curr nx
        (match prev with
         | some pp => do
           let np ← bget r.1 pp
           let m2 := bset r.1 pp { np with sibling := some r.2 }
           let ncn ← bget m2 r.2
           bm_loop fuel m2 hd prev r.2 ncn.sibling
         | none => do
           let ncn ← bget r.1 r.2
           bm_loop fuel r.1 (some r.2) prev r.2 ncn.sibling)

/-- binomial_heap.c `binomial_merge`: merge the root lists, then
consolidate. A heap is represented by its `head` pointer (the heap
struct that the C code allocates holds nothing else). -/
def binomial_merge (fuel : Nat) (m : BMem) (h1 h2 : Option Nat) :
    Except CErr (BMem × Option Nat) := do
  let r ← merge_roots fuel m h1 h2
  match r.2 with
  | none => .ok (r.1, none)
  | some c => do
    let nc ← bget r.1 c
    bm_loop fuel r.1 (some c) none c nc.sibling

/-- binomial_heap.c `binomial_insert`: allocate a degree-0 node
(`binomial_new_node`), wrap it as a singleton heap and merge. -/
def binomial_insert (fuel : Nat) (m : BMem) (hd : Option Nat) (key : Int) :
    Except CErr (BMem × Option Nat) :=
  binomial_merge fuel
    (m ++ [some { key := key, degree := 0, parent := none, child := none, sibling := none }])
    hd (some m.length)

/-- Scan loop of binomial_heap.c `binomial_find_min`
(`for (n = h->head; n; n = n->sibling)`). -/
def bfm_loop (fuel : Nat) (m : BMem) (n : Option Nat) (min : Int) :
    Except CErr Int :=
  match n with
  | none => .ok min
  | some p =>
    match fuel with
    | 0 => .error .fuelOut
    | fuel+1 => do
      let nd ← bget m p
      bfm_loop fuel m nd.sibling (if nd.key < min then nd.key else min)

/-- binomial_heap.c `binomial_find_min`: `assert(h->head)`, then the
scan (`INT_MAX` is the C initial accumulator). -/
def binomial_find_min (fuel : Nat) (m : BMem) (hd : Option Nat) :
    Except CErr Int :=
  match hd with
  | none => .error .assertFail
  | some _ => bfm_loop fuel m hd 2147483647

/-- Scan loop of `binomial_delete_min`
(`for (n = head; n->sibling; n = n->sibling)`): tracks the minimal root
and its predecessor. -/
def bdm_scan (fuel : Nat) (m : BMem) (n : Nat) (minNode : Nat)
    (minPrev : Option Nat) : Except CErr (Nat × Option Nat) :=
  match bget m n with
  | .error e => .error e
  | .ok nd =>
    match nd.sibling with
    | none => .ok (minNode, minPrev)
    | some s =>
      match fuel with
      | 0 => .error .fuelOut
      | fuel+1 => do
        let ns ← bget m s
        let nmin ← bget m minNode
        if ns.key < nmin.key then bdm_scan fuel m s s (some n)
        else bdm_scan fuel m s minNode minPrev

/-- Child-reversal loop of `binomial_delete_min` (`while (child)`):
`next = child->sibling; child->sibling = rev; child->parent = NULL;
rev = child; child = next;`. -/
def bdm_reverse (fuel : Nat) (m : BMem) (child rev : Option Nat) :
    Except CErr (BMem × Option Nat) :=
  match child with
  | none => .ok (m, rev)
  | some c =>
    match fuel with
    | 0 => .error .fuelOut
    | fuel+1 => do
      let nc ← bget m c
      bdm_reverse fuel (bset m c { nc with sibling := rev, parent := none })
        nc.sibling (some c)

/-- binomial_heap.c `binomial_delete_min`: there is no emptiness check —
with `head == NULL` the scan loop header evaluates `n->sibling` with
`n == NULL`, a null dereference. Otherwise: find the minimal root and
its predecessor, unlink it, reverse its child list, merge the reversed
children back as a heap, `free` the removed node. -/
def binomial_delete_min (fuel : Nat) (m : BMem) (hd : Option Nat) :
    Except CErr (BMem × Option Nat) :=
  match hd with
  | none => .error .nullDeref
  | some h0 => do
    let sc ← bdm_scan fuel m h0 h0 none
    let mn ← bget m sc.1
    let r1 ← (match sc.2 with
      | some p => do
        let np ← bget m p
        Except.ok (bset m p { np with sibling := mn.sibling }, hd)
      | none => Except.ok (m, mn.sibling))
    let mn1 ← bget r1.1 sc.1
    let r2 ← bdm_reverse fuel r1.1 mn1.child none
    let r3 ← binomial_merge fuel r2.1 r1.2 r2.2
    .ok (r3.1.set sc.1 none, r3.2)

/-- Full delete-min drain, observing each extracted key through
`binomial_find_min` (as the drain tests of the other heaps do), until
the head is `NULL`; one fuel per extracted element. -/
def binomial_drain (fuel : Nat) (m : BMem) (hd : Option Nat) :
    Except CErr (List Int) :=
  match hd with
  | none => .ok []
  | some _ =>
    match fuel with
    | 0 => .error .fuelOut
    | fuel+1 => do
      let k ← binomial_find_min fuel m hd
      let r ← binomial_delete_min fuel m hd
      let rest ← binomial_drain fuel r.1 r.2
      .ok (k :: rest)

/-- Replay `binomial_insert` for each key in turn starting from
`binomial_create` (empty memory, `head = NULL`). -/
def binomial_run (fuel : Nat) (keys : List Int) :
    Except CErr (BMem × Option Nat) :=
  keys.foldl (fun acc k => do
    let r ← acc
    binomial_insert fuel r.1 r.2 k) (.ok ([], none))

/-- Degrees along the sibling chain from the head — the observation the
binomial-degree claim is about. -/
def rootDegrees (fuel : Nat) (m : BMem) : Option Nat → Except CErr (List Nat)
  | none => .ok []
  | some p =>
    match fuel with
    | 0 => .error .fuelOut
    | fuel+1 => do
      let n ← bget m p
      let rest ← rootDegrees fuel m n.sibling
      .ok (n.degree :: rest)

/-- Memory after `binomial_insert 1; binomial_insert 2` on the empty
heap (also the memory produced by `binomial_merge` of two degree-0
singleton heaps holding 1 and 2): node 1 is simultaneously the child of
node 0 and still on the root sibling chain, because the consolidation
loop of `binomial_merge` never clears `curr->sibling` after
`binomial_link` keeps `curr` in place. -/
def memAfter12 : BMem :=
  [some { key := 1, degree := 1, parent := none, child := some 1, sibling := some 1 },
   some { key := 2, degree := 0, parent := some 0, child := none, sibling := none }]

/-- Memory reached inside the first `binomial_delete_min` on
`memAfter12`, right before the consolidation loop: the root list is the
self-loop `node 1 → node 1`. -/
def memSelfLoop : BMem :=
  [some { key := 1, degree := 1, parent := none, child := some 1, sibling := some 1 },
   some { key := 2, degree := 0, parent := none, child := none, sibling := some 1 }]

/-- Two valid singleton binomial heaps (head 0 and head 1) in one
memory. -/
def twoSingletonMem : BMem :=
  [some { key := 1, degree := 0, parent := none, child := none, sibling := none },
   some { key := 2, degree := 0, parent := none, child := none, sibling := none }]

/-- Intermediate memory inside the first `binomial_delete_min` on
`memAfter12`: minimum root 0 has been unlinked (head became node 1) and
node 0's child list (just node 1) has been reversed, clearing node 1's
parent and sibling. -/
def memMid : BMem :=
  [some { key := 1, degree := 1, parent := none, child := some 1, sibling := some 1 },
   some { key := 2, degree := 0, parent := none, child := none, sibling := none }]

/-- Memory after `binomial_insert 1; binomial_insert 2; binomial_insert 3`
on the empty heap; the head is node 2 and the root sibling chain is
`2 → 0 → 1` with degrees `0, 1, 0`. -/
def mem123 : BMem :=
  [some { key := 1, degree := 1, parent := none, child := some 1, sibling := some 1 },
   some { key := 2, degree := 0, parent := some 0, child := none, sibling := none },
   some { key := 3, degree := 0, parent := none, child := none, sibling := some 0 }]

/-! ## Pointer-level leftist and skew heaps — the persistent merges

`leftist_merge_persistent` / `skew_merge_persistent` deep-clone both
inputs and then run the destructive merge on the clones; whether the
originals survive is a property of the heap memory, so these two
functions are embedded at the pointer level: a memory is a list of
allocated records indexed by address, allocation appends, and every
field read/write of the C code becomes an explicit `lget`/`lset`
(`sget`/`sset`). -/

/-- leftist_heap.c `LeftistNode` as a memory record: the children are
addresses (`none` is `NULL`). -/
structure LNodeM where
  key : Int
  npl : Int
  left : Option Nat
  right : Option Nat
deriving DecidableEq, Repr

/-- Memory of leftist nodes. -/
abbrev LMem := List (Option LNodeM)

/-- Read a leftist node; freed (`none`) or unallocated addresses give
`badPtr`. -/
def lget (m : LMem) (p : Nat) : Except CErr LNodeM :=
  match m.get? p with
  | some (some n) => .ok n
  | _ => .error .badPtr

/-- Write a leftist node back. -/
def lset (m : LMem) (p : Nat) (n : LNodeM) : LMem := m.set p (some n)

/-- leftist_heap.c `npl` helper (`n ? n->npl : -1`) on the memory
model. -/
def nplM (m : LMem) : Option Nat → Except CErr Int
  | none => .ok (-1)
  | some q => do
    let n ← lget m q
    .ok n.npl

/-- leftist_heap.c `leftist_merge` on the memory model (the destructive
merge that `leftist_merge_persistent` runs on the clones): reads and
writes in C statement order, one fuel per recursive call. -/
def leftist_merge_m (fuel : Nat) (m : LMem) (a b : Option Nat) :
    Except CErr (LMem × Option Nat) :=
  match a, b with
  | none, b => .ok (m, b)
  | some pa, none => .ok (m, some pa)
  | some pa, some pb =>
    match fuel with
    | 0 => .error .fuelOut
    | fuel+1 => do
      let na ← lget m pa
      let nb ← lget m pb
      let (pa, pb) := if nb.key < na.key then (pb, pa) else (pa, pb)
      let na1 ← lget m pa
      let r ← leftist_merge_m fuel m na1.right (some pb)
      let na2 ← lget r.1 pa
      let m1 := lset r.1 pa { na2 with right := r.2 }
      let na3 ← lget m1 pa
      let nl ← nplM m1 na3.left
      let nr ← nplM m1 na3.right
      let m2 := if nl < nr then
        lset m1 pa { na3 with left := na3.right, right := na3.left } else m1
      let na4 ← lget m2 pa
      let nr2 ← nplM m2 na4.right
      .ok (lset m2 pa { na4 with npl := 1 + nr2 }, some pa)

/-- leftist_heap.c `leftist_clone`: `leftist_new_node(h->key)` appends
a fresh record (`npl = 0`, `NULL` children) at address `m.length`, then
`n->npl = h->npl`, then the two subtrees are cloned in order, re-reading
`h`'s child fields as the C expressions do. -/
def leftist_clone_m (fuel : Nat) (m : LMem) (h : Option Nat) :
    Except CErr (LMem × Option Nat) :=
  match h with
  | none => .ok (m, none)
  | some p =>
    match fuel with
    | 0 => .error .fuelOut
    | fuel+1 => do
      let nh ← lget m p
      let m1 := m ++ [some { key := nh.key, npl := 0, left := none, right := none }]
      let nq0 ← lget m1 m.length
      let m2 := lset m1 m.length { nq0 with npl := nh.npl }
      let nh1 ← lget m2 p
      let rl ← leftist_clone_m fuel m2 nh1.left
      let nq1 ← lget rl.1 m.length
      let m3 := lset rl.1 m.length { nq1 with left := rl.2 }
      let nh2 ← lget m3 p
      let rr ← leftist_clone_m fuel m3 nh2.right
      let nq2 ← lget rr.1 m.length
      .ok (lset rr.1 m.length { nq2 with right := rr.2 }, some m.length)

/-- leftist_heap.c `leftist_merge_persistent`: clone both inputs, then
destructively merge the two clones. -/
def leftist_merge_persistent_m (fuel : Nat) (m : LMem) (a b : Option Nat) :
    Except CErr (LMem × Option Nat) := do
  let ra ← leftist_clone_m fuel m a
  let rb ← leftist_clone_m fuel ra.1 b
  leftist_merge_m fuel rb.1 ra.2 rb.2

/-- skew_heap.c `SkewNode` as a memory record. -/
structure SNodeM where
  key : Int
  left : Option Nat
  right : Option Nat
deriving DecidableEq, Repr

/-- Memory of skew nodes. -/
abbrev SMem := List (Option SNodeM)

/-- Read a skew node. -/
def sget (m : SMem) (p : Nat) : Except CErr SNodeM :=
  match m.get? p with
  | some (some n) => .ok n
  | _ => .error .badPtr

/-- Write a skew node back. -/
def sset (m : SMem) (p : Nat) (n : SNodeM) : SMem := m.set p (some n)

/-- skew_heap.c `skew_merge` on the memory model: recursive merge into
`a->right`, then the unconditional child swap. -/
def skew_merge_m (fuel : Nat) (m : SMem) (a b : Option Nat) :
    Except CErr (SMem × Option Nat) :=
  match a, b with
  | none, b => .ok (m, b)
  | some pa, none => .ok (m, some pa)
  | some pa, some pb =>
    match fuel with
    | 0 => .error .fuelOut
    | fuel+1 => do
      let na ← sget m pa
      let nb ← sget m pb
      let (pa, pb) := if nb.key < na.key then (pb, pa) else (pa, pb)
      let na1 ← sget m pa
      let r ← skew_merge_m fuel m na1.right (some pb)
      let na2 ← sget r.1 pa
      let m1 := sset r.1 pa { na2 with right := r.2 }
      let na3 ← sget m1 pa
      .ok (sset m1 pa { na3 with left := na3.right, right := na3.left }, some pa)

/-- skew_heap.c `skew_clone`: `skew_new_node(h->key)` appends a fresh
record, then the two subtrees are cloned in order. -/
def skew_clone_m (fuel : Nat) (m : SMem) (h : Option Nat) :
    Except CErr (SMem × Option Nat) :=
  match h with
  | none => .ok (m, none)
  | some p =>
    match fuel with
    | 0 => .error .fuelOut
    | fuel+1 => do
      let nh ← sget m p
      let m1 := m ++ [some { key := nh.key, left := none, right := none }]
      let nh1 ← sget m1 p
      let rl ← skew_clone_m fuel m1 nh1.left
      let nq1 ← sget rl.1 m.length
      let m2 := sset rl.1 m.length { nq1 with left := rl.2 }
      let nh2 ← sget m2 p
      let rr ← skew_clone_m fuel m2 nh2.right
      let nq2 ← sget rr.1 m.length
      .ok (sset rr.1 m.length { nq2 with right := rr.2 }, some m.length)

/-- skew_heap.c `skew_merge_persistent`: clone both inputs, then
destructively merge the two clones. -/
def skew_merge_persistent_m (fuel : Nat) (m : SMem) (a b : Option Nat) :
    Except CErr (SMem × Option Nat) := do
  let ra ← skew_clone_m fuel m a
  let rb ← skew_clone_m fuel ra.1 b
  skew_merge_m fuel rb.1 ra.2 rb.2

/-- `optGe N x`: the pointer `x` is `NULL` or an address at least `N`. -/
def optGe (N : Nat) : Option Nat → Prop
  | none => True
  | some q => N ≤ q

/-- `Region ch N m`: every record stored at an address `≥ N` points (via
its two child pointers, extracted by `ch`) only to addresses `≥ N`.  The
region of nodes allocated after the first `N` cells is closed under
following children, so no pre-existing node is reachable from a root
inside it. -/
def Region {α : Type} (ch : α → Option Nat × Option Nat) (N : Nat)
    (m : List (Option α)) : Prop :=
  ∀ p n, N ≤ p → m.get? p = some (some n) → optGe N (ch n).1 ∧ optGe N (ch n).2

/-- `Region` for leftist-node memories. -/
abbrev LRegion (N : Nat) (m : LMem) : Prop :=
  Region (fun n => (n.left, n.right)) N m

/-- `Region` for skew-node memories. -/
abbrev SRegion (N : Nat) (m : SMem) : Prop :=
  Region (fun n => (n.left, n.right)) N m

/-! ## Lemmas -/

theorem bindE_ok {α β : Type} (a : α) (f : α → Except CErr β) :
    (do let x ← Except.ok a; f x) = f a := rfl

theorem bindE_error {α β : Type} (e : CErr) (f : α → Except CErr β) :
    (do let x ← (Except.error e : Except CErr α); f x) = Except.error e := rfl

theorem bind_ok_iff {α β : Type} (x : Except CErr α) (f : α → Except CErr β) (b : β) :
    (do let v ← x; f v) = .ok b ↔ ∃ a, x = .ok a ∧ f a = .ok b := by
  cases x with
  | error e => simp [bindE_error]
  | ok a => simp [bindE_ok]

theorem sorted_bkeys : ∀ {t : Node}, IsSBT t → List.Sorted (· < ·) (bkeys t)
  | .nil, _ => by simp [bkeys]
  | .node k l r, h => by
    obtain ⟨hl, hr, il, ir⟩ := h
    have sl := sorted_bkeys il
    have sr := sorted_bkeys ir
    refine (List.pairwise_append).2 ⟨sl, ?_, ?_⟩
    · exact (List.pairwise_cons).2 ⟨hr, sr⟩
    · intro a ha b hb
      rcases List.mem_cons.1 hb with rfl | hb
      · exact hl a ha
      · exact (hl a ha).trans (hr b hb)

theorem mem_bkeys_insert {t : Node} {key y : Int}
    (h : y ∈ bkeys (bst_insert t key)) : y ∈ bkeys t ∨ y = key := by
  induction t with
  | nil => simp [bst_insert, bkeys] at h; simp [h]
  | node k l r ihl ihr =>
    unfold bst_insert at h
    split_ifs at h with h1 h2
    · simp only [bkeys, List.mem_append, List.mem_cons] at h ⊢
      rcases h with h | h
      · rcases ihl h with h | h
        · exact Or.inl (Or.inl h)
        · exact Or.inr h
      · exact Or.inl (Or.inr h)
    · simp only [bkeys, List.mem_append, List.mem_cons] at h ⊢
      rcases h with h | h
      · exact Or.inl (Or.inl h)
      · rcases h with h | h
        · exact Or.inl (Or.inr (Or.inl h))
        · rcases ihr h with h | h
          · exact Or.inl (Or.inr (Or.inr h))
          · exact Or.inr h
    · exact Or.inl h

theorem IsSBT_insert {t : Node} (key : Int) (h : IsSBT t) :
    IsSBT (bst_insert t key) := by
  induction t with
  | nil => exact ⟨by simp [bkeys], by simp [bkeys], trivial, trivial⟩
  | node k l r ihl ihr =>
    obtain ⟨hl, hr, il, ir⟩ := h
    unfold bst_insert
    split_ifs with h1 h2
    · refine ⟨?_, hr, ihl il, ir⟩
      intro y hy
      rcases mem_bkeys_insert hy with hy | rfl
      · exact hl y hy
      · exact h1
    · refine ⟨hl, ?_, il, ihr ir⟩
      intro y hy
      rcases mem_bkeys_insert hy with hy | rfl
      · exact hr y hy
      · exact h2
    · exact ⟨hl, hr, il, ir⟩

theorem bst_min_key_mem : ∀ (k : Int) (l r : Node),
    bst_min_key (.node k l r) ∈ bkeys (.node k l r)
  | k, .nil, r => by simp [bst_min_key, bkeys]
  | k, .node lk ll lr, r => by
    have := bst_min_key_mem lk ll lr
    simp only [bst_min_key, bkeys, List.mem_append, List.mem_cons] at this ⊢
    tauto

theorem bst_min_key_le : ∀ (k : Int) (l r : Node), IsSBT (.node k l r) →
    ∀ y ∈ bkeys (.node k l r), bst_min_key (.node k l r) ≤ y
  | k, .nil, r, h, y, hy => by
    obtain ⟨_, hr, _, _⟩ := h
    simp only [bst_min_key]
    simp only [bkeys, List.nil_append, List.mem_cons] at hy
    rcases hy with rfl | hy
    · exact le_refl y
    · exact le_of_lt (hr y hy)
  | k, .node lk ll lr, r, h, y, hy => by
    obtain ⟨hl, hr, il, ir⟩ := h
    have hmem := bst_min_key_mem lk ll lr
    have hle := bst_min_key_le lk ll lr il
    have hmin_lt_k : bst_min_key (.node lk ll lr) < k := hl _ hmem
    have hy' : y ∈ bkeys (.node lk ll lr) ++ k :: bkeys r := hy
    show bst_min_key (.node lk ll lr) ≤ y
    rcases List.mem_append.1 hy' with hy2 | hy2
    · exact hle y hy2
    · rcases List.mem_cons.1 hy2 with rfl | hy3
      · exact le_of_lt hmin_lt_k
      · exact le_of_lt (hmin_lt_k.trans (hr y hy3))

theorem bkeys_delete_perm : ∀ {t : Node} (key : Int), IsSBT t →
    List.Perm (bkeys (bst_delete t key)) ((bkeys t).erase key)
  | .nil, key, _ => by simp [bst_delete, bkeys]
  | .node k l r, key, h => by
    obtain ⟨hl, hr, il, ir⟩ := h
    have hknr : key < k → key ∉ (k :: bkeys r) := by
      intro h1 hmem
      rcases List.mem_cons.1 hmem with rfl | hmem
      · exact absurd h1 (lt_irrefl _)
      · exact absurd (h1.trans (hr _ hmem)) (lt_irrefl _)
    unfold bst_delete
    split_ifs with h1 h2
    · -- descend left
      simp only [bkeys]
      by_cases hmem : key ∈ bkeys l
      · rw [List.erase_append_left _ hmem]
        exact (bkeys_delete_perm key il).append_right _
      · rw [List.erase_append_right _ hmem, List.erase_of_not_mem (hknr h1)]
        have h3 := bkeys_delete_perm key il
        rw [List.erase_of_not_mem hmem] at h3
        exact h3.append_right _
    · -- descend right
      simp only [bkeys]
      have hknl : key ∉ bkeys l := fun hmem =>
        absurd ((hl _ hmem).trans h2) (lt_irrefl _)
      rw [List.erase_append_right _ hknl,
        List.erase_cons_tail (by simp; omega)]
      exact ((bkeys_delete_perm key ir).cons k).append_left _
    · -- key = k
      have hkeq : key = k := le_antisymm (not_lt.1 h2) (not_lt.1 h1)
      subst hkeq
      have hknl : key ∉ bkeys l := fun hmem => absurd (hl _ hmem) (lt_irrefl _)
      match l, r with
      | .nil, .nil => simp [bkeys]
      | .nil, .node rk rl rr => simp [bkeys]
      | .node lk ll lr, .nil =>
        have e1 : bkeys (Node.node key (Node.node lk ll lr) Node.nil)
            = bkeys (Node.node lk ll lr) ++ [key] := rfl
        rw [e1, List.erase_append_right _ hknl]
        simp
      | .node lk ll lr, .node rk rl rr =>
        have e1 : bkeys (Node.node key (Node.node lk ll lr) (Node.node rk rl rr))
            = bkeys (Node.node lk ll lr) ++ key :: bkeys (Node.node rk rl rr) := rfl
        rw [e1, List.erase_append_right _ hknl, List.erase_cons_head]
        show List.Perm (bkeys (Node.node lk ll lr) ++
          bst_min_key (Node.node rk rl rr) ::
            bkeys (bst_delete (Node.node rk rl rr) (bst_min_key (Node.node rk rl rr))))
          (bkeys (Node.node lk ll lr) ++ bkeys (Node.node rk rl rr))
        refine List.Perm.append_left _ ?_
        exact ((bkeys_delete_perm _ ir).cons _).trans
          (List.perm_cons_erase (bst_min_key_mem rk rl rr)).symm

theorem IsSBT_delete : ∀ {t : Node} (key : Int), IsSBT t →
    IsSBT (bst_delete t key)
  | .nil, key, _ => trivial
  | .node k l r, key, h => by
    obtain ⟨hl, hr, il, ir⟩ := h
    unfold bst_delete
    split_ifs with h1 h2
    · refine ⟨?_, hr, IsSBT_delete key il, ir⟩
      intro y hy
      exact hl y (List.mem_of_mem_erase ((bkeys_delete_perm key il).mem_iff.1 hy))
    · refine ⟨hl, ?_, il, IsSBT_delete key ir⟩
      intro y hy
      exact hr y (List.mem_of_mem_erase ((bkeys_delete_perm key ir).mem_iff.1 hy))
    · match l, r with
      | .nil, .nil => trivial
      | .nil, .node rk rl rr => exact ir
      | .node lk ll lr, .nil => exact il
      | .node lk ll lr, .node rk rl rr =>
        have hmem := bst_min_key_mem rk rl rr
        have hmin_gt : k < bst_min_key (.node rk rl rr) := hr _ hmem
        have hnodup : (bkeys (.node rk rl rr)).Nodup :=
          (sorted_bkeys ir).nodup
        refine ⟨?_, ?_, il, IsSBT_delete _ ir⟩
        · intro y hy
          exact (hl y hy).trans hmin_gt
        · intro y hy
          have hy2 := (bkeys_delete_perm _ ir).mem_iff.1 hy
          have := (hnodup.mem_erase_iff).1 hy2
          exact lt_of_le_of_ne (bst_min_key_le rk rl rr ir y this.2) (Ne.symm this.1)

theorem IsSBT_bstRun (ops : List BstOp) : IsSBT (bstRun ops) := by
  suffices h : ∀ t, IsSBT t → IsSBT (ops.foldl (fun t op => match op with
      | BstOp.ins k => bst_insert t k
      | BstOp.del k => bst_delete t k) t) from h .nil trivial
  induction ops with
  | nil => exact fun t ht => ht
  | cons op ops ih =>
    intro t ht
    cases op with
    | ins k => exact ih _ (IsSBT_insert k ht)
    | del k => exact ih _ (IsSBT_delete k ht)

theorem TSBT.toTB : ∀ {t : Treap}, TSBT t → TB t
  | .nil, _ => trivial
  | .node k p l r, h => by
    obtain ⟨hl, hr, il, ir⟩ := h
    exact ⟨fun y hy => le_of_lt (hl y hy), fun y hy => le_of_lt (hr y hy),
      il.toTB, ir.toTB⟩

theorem tkeys_split : ∀ (t : Treap) (key : Int),
    tkeys (treap_split t key).1 ++ tkeys (treap_split t key).2 = tkeys t
  | .nil, key => rfl
  | .node k p l r, key => by
    unfold treap_split
    split_ifs with h1
    · have := tkeys_split l key
      simp only [tkeys]
      rw [← List.append_assoc, this]
    · have := tkeys_split r key
      simp only [tkeys]
      rw [List.append_assoc, List.cons_append, this]

theorem mem_tkeys_split_1 {t : Treap} {key y : Int}
    (h : y ∈ tkeys (treap_split t key).1) : y ∈ tkeys t := by
  rw [← tkeys_split t key]
  exact List.mem_append.2 (Or.inl h)

theorem mem_tkeys_split_2 {t : Treap} {key y : Int}
    (h : y ∈ tkeys (treap_split t key).2) : y ∈ tkeys t := by
  rw [← tkeys_split t key]
  exact List.mem_append.2 (Or.inr h)

theorem mem_tprios_split : ∀ (t : Treap) (key : Int) (q : Int),
    (q ∈ tprios (treap_split t key).1 → q ∈ tprios t) ∧
    (q ∈ tprios (treap_split t key).2 → q ∈ tprios t)
  | .nil, key, q => ⟨fun h => h, fun h => h⟩
  | .node k p l r, key, q => by
    unfold treap_split
    split_ifs with h1
    · have ih := mem_tprios_split l key q
      simp only [tprios, List.mem_cons, List.mem_append]
      constructor
      · intro h; exact Or.inr (Or.inl (ih.1 h))
      · intro h
        rcases h with h | h | h
        · exact Or.inl h
        · exact Or.inr (Or.inl (ih.2 h))
        · exact Or.inr (Or.inr h)
    · have ih := mem_tprios_split r key q
      simp only [tprios, List.mem_cons, List.mem_append]
      constructor
      · intro h
        rcases h with h | h | h
        · exact Or.inl h
        · exact Or.inr (Or.inl h)
        · exact Or.inr (Or.inr (ih.1 h))
      · intro h; exact Or.inr (Or.inr (ih.2 h))

theorem treap_split_bounds : ∀ (t : Treap) (key : Int), TB t →
    (∀ y ∈ tkeys (treap_split t key).1, y < key) ∧
    (∀ y ∈ tkeys (treap_split t key).2, key ≤ y)
  | .nil, key, _ => by simp [treap_split, tkeys]
  | .node k p l r, key, h => by
    obtain ⟨hl, hr, il, ir⟩ := h
    have ihl := treap_split_bounds l key il
    have ihr := treap_split_bounds r key ir
    unfold treap_split
    split_ifs with h1
    · refine ⟨ihl.1, ?_⟩
      intro y hy
      have : y ∈ tkeys (treap_split l key).2 ++ k :: tkeys r := hy
      rcases List.mem_append.1 this with hy2 | hy2
      · exact ihl.2 y hy2
      · rcases List.mem_cons.1 hy2 with rfl | hy3
        · exact h1
        · exact h1.trans (hr y hy3)
    · refine ⟨?_, ihr.2⟩
      intro y hy
      have : y ∈ tkeys l ++ k :: tkeys (treap_split r key).1 := hy
      rcases List.mem_append.1 this with hy2 | hy2
      · exact lt_of_le_of_lt (hl y hy2) (not_le.1 h1)
      · rcases List.mem_cons.1 hy2 with rfl | hy3
        · exact not_le.1 h1
        · exact ihr.1 y hy3

theorem TB_treap_split : ∀ (t : Treap) (key : Int), TB t →
    TB (treap_split t key).1 ∧ TB (treap_split t key).2
  | .nil, key, _ => ⟨trivial, trivial⟩
  | .node k p l r, key, h => by
    obtain ⟨hl, hr, il, ir⟩ := h
    unfold treap_split
    split_ifs with h1
    · refine ⟨(TB_treap_split l key il).1, ?_, hr, (TB_treap_split l key il).2, ir⟩
      intro y hy
      exact hl y (mem_tkeys_split_2 hy)
    · refine ⟨⟨hl, ?_, il, (TB_treap_split r key ir).1⟩, (TB_treap_split r key ir).2⟩
      intro y hy
      exact hr y (mem_tkeys_split_1 hy)

theorem TSBT_treap_split : ∀ (t : Treap) (key : Int), TSBT t →
    TSBT (treap_split t key).1 ∧ TSBT (treap_split t key).2
  | .nil, key, _ => ⟨trivial, trivial⟩
  | .node k p l r, key, h => by
    obtain ⟨hl, hr, il, ir⟩ := h
    unfold treap_split
    split_ifs with h1
    · refine ⟨(TSBT_treap_split l key il).1, ?_, hr, (TSBT_treap_split l key il).2, ir⟩
      intro y hy
      exact hl y (mem_tkeys_split_2 hy)
    · refine ⟨⟨hl, ?_, il, (TSBT_treap_split r key ir).1⟩, (TSBT_treap_split r key ir).2⟩
      intro y hy
      exact hr y (mem_tkeys_split_1 hy)

theorem MaxHeapT_treap_split : ∀ (t : Treap) (key : Int), MaxHeapT t →
    MaxHeapT (treap_split t key).1 ∧ MaxHeapT (treap_split t key).2
  | .nil, key, _ => ⟨trivial, trivial⟩
  | .node k p l r, key, h => by
    obtain ⟨hl, hr, il, ir⟩ := h
    unfold treap_split
    split_ifs with h1
    · refine ⟨(MaxHeapT_treap_split l key il).1, ?_, hr, (MaxHeapT_treap_split l key il).2, ir⟩
      intro q hq
      exact hl q ((mem_tprios_split l key q).2 hq)
    · refine ⟨⟨hl, ?_, il, (MaxHeapT_treap_split r key ir).1⟩, (MaxHeapT_treap_split r key ir).2⟩
      intro q hq
      exact hr q ((mem_tprios_split r key q).1 hq)

theorem tkeys_merge : ∀ (a b : Treap),
    tkeys (treap_merge a b) = tkeys a ++ tkeys b
  | .nil, r => by simp [treap_merge, tkeys]
  | .node lk lp ll lr, .nil => by simp [treap_merge, tkeys]
  | .node lk lp ll lr, .node rk rp rl rr => by
    rw [treap_merge]
    split_ifs with h1
    · rw [show tkeys (Treap.node lk lp ll (treap_merge lr (.node rk rp rl rr)))
          = tkeys ll ++ lk :: tkeys (treap_merge lr (.node rk rp rl rr)) from rfl,
        tkeys_merge lr (.node rk rp rl rr)]
      simp [tkeys]
    · rw [show tkeys (Treap.node rk rp (treap_merge (.node lk lp ll lr) rl) rr)
          = tkeys (treap_merge (.node lk lp ll lr) rl) ++ rk :: tkeys rr from rfl,
        tkeys_merge (.node lk lp ll lr) rl]
      simp [tkeys]
termination_by a b => sizeOf a + sizeOf b

theorem TB_treap_merge : ∀ (a b : Treap), TB a → TB b →
    (∀ x ∈ tkeys a, ∀ y ∈ tkeys b, x ≤ y) → TB (treap_merge a b)
  | .nil, r, _, hb, _ => by simpa [treap_merge] using hb
  | .node lk lp ll lr, .nil, ha, _, _ => by simpa [treap_merge] using ha
  | .node lk lp ll lr, .node rk rp rl rr, ha, hb, hsep => by
    rw [treap_merge]
    obtain ⟨hal, har, ial, iar⟩ := ha
    obtain ⟨hbl, hbr, ibl, ibr⟩ := hb
    split_ifs with h1
    · refine ⟨hal, ?_, ial, ?_⟩
      · intro y hy
        rw [tkeys_merge] at hy
        rcases List.mem_append.1 hy with hy | hy
        · exact har y hy
        · exact hsep lk (by simp [tkeys]) y hy
      · exact TB_treap_merge lr (.node rk rp rl rr) iar ⟨hbl, hbr, ibl, ibr⟩
          (fun x hx y hy => hsep x (by simp [tkeys]; tauto) y hy)
    · refine ⟨?_, hbr, ?_, ibr⟩
      · intro y hy
        rw [tkeys_merge] at hy
        rcases List.mem_append.1 hy with hy | hy
        · exact hsep y hy rk (by simp [tkeys])
        · exact hbl y hy
      · exact TB_treap_merge (.node lk lp ll lr) rl ⟨hal, har, ial, iar⟩ ibl
          (fun x hx y hy => hsep x hx y (by simp [tkeys]; tauto))
termination_by a b => sizeOf a + sizeOf b

theorem TB_treap_insert (t : Treap) (key priority : Int) (h : TB t) :
    TB (treap_insert t key priority) := by
  have hb := treap_split_bounds t key h
  have htb := TB_treap_split t key h
  unfold treap_insert
  apply TB_treap_merge
  · apply TB_treap_merge _ _ htb.1
      (show TB (.node key priority .nil .nil) from
        ⟨by simp [tkeys], by simp [tkeys], trivial, trivial⟩)
    intro x hx y hy
    have : y ∈ tkeys (Treap.node key priority .nil .nil) := hy
    simp [tkeys] at this
    subst this
    exact le_of_lt (hb.1 x hx)
  · exact htb.2
  · intro x hx y hy
    rw [tkeys_merge] at hx
    rcases List.mem_append.1 hx with hx | hx
    · exact le_of_lt (lt_of_lt_of_le (hb.1 x hx) (hb.2 y hy))
    · have : x ∈ tkeys (Treap.node key priority .nil .nil) := hx
      simp [tkeys] at this
      subst this
      exact hb.2 y hy

theorem tkeys_remove_sublist : ∀ (t : Treap) (key : Int),
    List.Sublist (tkeys (treap_remove t key)) (tkeys t)
  | .nil, key => List.Sublist.refl _
  | .node k p l r, key => by
    rw [treap_remove]
    split_ifs with h1 h2
    · rw [tkeys_merge]
      exact (List.sublist_cons_self k (tkeys r)).append_left (tkeys l)
    · exact (tkeys_remove_sublist l key).append (List.Sublist.refl _)
    · exact List.Sublist.append (List.Sublist.refl _)
        ((tkeys_remove_sublist r key).cons₂ k)

theorem TB_treap_remove : ∀ (t : Treap) (key : Int), TB t →
    TB (treap_remove t key)
  | .nil, _, _ => trivial
  | .node k p l r, key, h => by
    obtain ⟨hl, hr, il, ir⟩ := h
    rw [treap_remove]
    split_ifs with h1 h2
    · exact TB_treap_merge l r il ir (fun x hx y hy => (hl x hx).trans (hr y hy))
    · exact ⟨fun y hy => hl y ((tkeys_remove_sublist l key).subset hy), hr,
        TB_treap_remove l key il, ir⟩
    · exact ⟨hl, fun y hy => hr y ((tkeys_remove_sublist r key).subset hy), il,
        TB_treap_remove r key ir⟩

theorem sorted_le_tkeys : ∀ {t : Treap}, TB t →
    List.Sorted (· ≤ ·) (tkeys t)
  | .nil, _ => by simp [tkeys]
  | .node k p l r, h => by
    obtain ⟨hl, hr, il, ir⟩ := h
    refine (List.pairwise_append).2 ⟨sorted_le_tkeys il, ?_, ?_⟩
    · exact (List.pairwise_cons).2 ⟨hr, sorted_le_tkeys ir⟩
    · intro a ha b hb
      rcases List.mem_cons.1 hb with rfl | hb
      · exact hl a ha
      · exact (hl a ha).trans (hr b hb)

theorem TB_treapRun (ops : List TreapOp) : TB (treapRun ops) := by
  suffices h : ∀ t, TB t → TB (ops.foldl (fun t op => match op with
      | TreapOp.ins k p => treap_insert t k p
      | TreapOp.rem k => treap_remove t k) t) from h .nil trivial
  induction ops with
  | nil => exact fun t ht => ht
  | cons op ops ih =>
    intro t ht
    cases op with
    | ins k p => exact ih _ (TB_treap_insert t k p ht)
    | rem k => exact ih _ (TB_treap_remove t k ht)

theorem LValid_leftist_merge : ∀ (a b : LTree), LValid a → LValid b →
    LValid (leftist_merge a b)
  | .nil, b, _, hb => by simpa [leftist_merge] using hb
  | .node ka na la ra, .nil, ha, _ => by simpa [leftist_merge] using ha
  | .node ka na la ra, .node kb nb lb rb, ha, hb => by
    obtain ⟨hna, hra, val, var⟩ := ha
    obtain ⟨hnb, hrb, vbl, vbr⟩ := hb
    simp only [leftist_merge]
    split_ifs with h1 h2 h3
    · exact ⟨by omega, le_of_lt h2,
        LValid_leftist_merge rb (.node ka na la ra) vbr ⟨hna, hra, val, var⟩, vbl⟩
    · exact ⟨by omega, not_lt.1 h2, vbl,
        LValid_leftist_merge rb (.node ka na la ra) vbr ⟨hna, hra, val, var⟩⟩
    · exact ⟨by omega, le_of_lt h3,
        LValid_leftist_merge ra (.node kb nb lb rb) var ⟨hnb, hrb, vbl, vbr⟩, val⟩
    · exact ⟨by omega, not_lt.1 h3, val,
        LValid_leftist_merge ra (.node kb nb lb rb) var ⟨hnb, hrb, vbl, vbr⟩⟩
termination_by a b => sizeOf a + sizeOf b

theorem lget_ok_iff {m : LMem} {p : Nat} {n : LNodeM} :
    lget m p = .ok n ↔ m.get? p = some (some n) := by
  unfold lget
  cases h : m.get? p with
  | none => simp
  | some o => cases o with
    | none => simp
    | some v => simp

theorem sget_ok_iff {m : SMem} {p : Nat} {n : SNodeM} :
    sget m p = .ok n ↔ m.get? p = some (some n) := by
  unfold sget
  cases h : m.get? p with
  | none => simp
  | some o => cases o with
    | none => simp
    | some v => simp

theorem lset_get?_ne {m : LMem} {v : LNodeM} {p q : Nat} (h : p ≠ q) :
    (lset m p v).get? q = m.get? q := List.get?_set_ne _ _ h

theorem sset_get?_ne {m : SMem} {v : SNodeM} {p q : Nat} (h : p ≠ q) :
    (sset m p v).get? q = m.get? q := List.get?_set_ne _ _ h

theorem optGe_mono {N M : Nat} (h : N ≤ M) {x : Option Nat} (hx : optGe M x) :
    optGe N x := by
  cases x with
  | none => trivial
  | some q => exact le_trans h hx

theorem Region_of_le {α : Type} {ch : α → Option Nat × Option Nat} {N : Nat}
    {m : List (Option α)} (h : m.length ≤ N) : Region ch N m := by
  intro p n hNp hp
  rw [List.get?_eq_none.mpr (le_trans h hNp)] at hp
  exact Option.noConfusion hp

theorem Region_combine {α : Type} {ch : α → Option Nat × Option Nat} {N M : Nat}
    {m1 m2 : List (Option α)} (hNM : N ≤ M) (h1 : Region ch N m1) (h2 : Region ch M m2)
    (hf : ∀ p, p < M → m2.get? p = m1.get? p) : Region ch N m2 := by
  intro p n hNp hp
  by_cases hpM : p < M
  · exact h1 p n hNp ((hf p hpM).symm.trans hp)
  · obtain ⟨hl, hr⟩ := h2 p n (Nat.le_of_not_lt hpM) hp
    exact ⟨optGe_mono hNM hl, optGe_mono hNM hr⟩

theorem Region_set {α : Type} {ch : α → Option Nat × Option Nat} {N : Nat}
    {m : List (Option α)} {p : Nat} {v : α} (hm : Region ch N m)
    (hl : optGe N (ch v).1) (hr : optGe N (ch v).2) :
    Region ch N (m.set p (some v)) := by
  intro q n hNq hq
  by_cases hqp : p = q
  · subst hqp
    rw [List.get?_set_eq] at hq
    cases ho : m.get? p with
    | none => rw [ho] at hq; exact Option.noConfusion hq
    | some o =>
      rw [ho] at hq
      simp only [Option.map_some, Option.some.injEq] at hq
      cases hq
      exact ⟨hl, hr⟩
  · rw [List.get?_set_ne _ _ hqp] at hq
    exact hm q n hNq hq

theorem Region_append {α : Type} {ch : α → Option Nat × Option Nat} {N : Nat}
    {m : List (Option α)} {v : α} (hm : Region ch N m)
    (hl : optGe N (ch v).1) (hr : optGe N (ch v).2) :
    Region ch N (m ++ [some v]) := by
  intro q n hNq hq
  by_cases hql : q < m.length
  · rw [List.get?_append hql] at hq
    exact hm q n hNq hq
  · rw [List.get?_append_right (Nat.le_of_not_lt hql)] at hq
    match hd : q - m.length with
    | 0 =>
      rw [hd] at hq
      simp only [List.get?] at hq
      cases hq
      exact ⟨hl, hr⟩
    | k+1 =>
      rw [hd] at hq
      simp only [List.get?] at hq
      exact Option.noConfusion hq

/-- `leftist_clone` touches nothing below the allocation frontier: every
pre-existing cell keeps its contents, the copy lives entirely in fresh
cells (a child-closed region), and its root is fresh. -/
theorem leftist_clone_m_frame (fuel : Nat) :
    ∀ (m : LMem) (h : Option Nat) (m' : LMem) (r : Option Nat),
    leftist_clone_m fuel m h = .ok (m', r) →
    m.length ≤ m'.length ∧
    (∀ p, p < m.length → m'.get? p = m.get? p) ∧
    LRegion m.length m' ∧ optGe m.length r := by
  induction fuel with
  | zero =>
    intro m h m' r hc
    rcases h with _ | p
    · simp only [leftist_clone_m, Except.ok.injEq, Prod.mk.injEq] at hc
      obtain ⟨h1, h2⟩ := hc
      subst h1; subst h2
      exact ⟨Nat.le_refl _, fun p _ => rfl, Region_of_le (Nat.le_refl _), trivial⟩
    · simp [leftist_clone_m] at hc
  | succ f ih =>
    intro m h m' r hc
    rcases h with _ | p
    · simp only [leftist_clone_m, Except.ok.injEq, Prod.mk.injEq] at hc
      obtain ⟨h1, h2⟩ := hc
      subst h1; subst h2
      exact ⟨Nat.le_refl _, fun p _ => rfl, Region_of_le (Nat.le_refl _), trivial⟩
    · simp only [leftist_clone_m, bind_ok_iff, Except.ok.injEq, Prod.mk.injEq] at hc
      obtain ⟨nh, hnh, nq0, hnq0, nh1, hnh1, rl, hrl, nq1, hnq1, nh2, hnh2, rr, hrr,
        nq2, hnq2, hm', hr⟩ := hc
      subst hm'; subst hr
      obtain ⟨hlen_l, hfr_l, hreg_l, hge_l⟩ := ih _ _ _ _ hrl
      obtain ⟨hlen_r, hfr_r, hreg_r, hge_r⟩ := ih _ _ _ _ hrr
      simp only [lset, List.length_set, List.length_append, List.length_cons,
        List.length_nil] at hlen_l hlen_r hfr_l hfr_r hreg_l hreg_r hge_l hge_r ⊢
      have h1len : m.length + 1 ≤ rl.1.length := hlen_l
      have h2len : rl.1.length ≤ rr.1.length := hlen_r
      have hregM1 : LRegion m.length
          (m ++ [some { key := nh.key, npl := 0, left := none, right := none }]) :=
        Region_append (Region_of_le (Nat.le_refl _)) trivial trivial
      have hq0 := hregM1 m.length nq0 (Nat.le_refl _) (lget_ok_iff.mp hnq0)
      have hregM2 : LRegion m.length
          (((m ++ [some { key := nh.key, npl := 0, left := none, right := none }]) : LMem).set
            m.length (some ({ nq0 with npl := nh.npl } : LNodeM))) :=
        Region_set hregM1 hq0.1 hq0.2
      have hregRL : LRegion m.length rl.1 :=
        Region_combine (Nat.le_succ _) hregM2 hreg_l hfr_l
      have hq1 := hregRL m.length nq1 (Nat.le_refl _) (lget_ok_iff.mp hnq1)
      have hregM3 : LRegion m.length
          (rl.1.set m.length (some ({ nq1 with left := rl.2 } : LNodeM))) :=
        Region_set hregRL (optGe_mono (Nat.le_succ _) hge_l) hq1.2
      have hregRR : LRegion m.length rr.1 :=
        Region_combine (le_trans (Nat.le_succ _) h1len) hregM3 hreg_r hfr_r
      have hq2 := hregRR m.length nq2 (Nat.le_refl _) (lget_ok_iff.mp hnq2)
      refine ⟨?_, ?_, ?_, Nat.le_refl _⟩
      · exact le_trans (Nat.le_succ _) (le_trans h1len h2len)
      · intro p hp
        have hne : m.length ≠ p := (Nat.ne_of_lt hp).symm
        rw [List.get?_set_ne _ _ hne]
        rw [hfr_r p (lt_of_lt_of_le hp (le_trans (Nat.le_succ _) h1len))]
        rw [List.get?_set_ne _ _ hne]
        rw [hfr_l p (lt_of_lt_of_le hp (Nat.le_succ _))]
        rw [List.get?_set_ne _ _ hne]
        exact List.get?_append hp
      · exact Region_set hregRR hq2.1 (optGe_mono (le_trans (Nat.le_succ _) h1len) hge_r)

/-- Same frame statement for `skew_clone`. -/
theorem skew_clone_m_frame (fuel : Nat) :
    ∀ (m : SMem) (h : Option Nat) (m' : SMem) (r : Option Nat),
    skew_clone_m fuel m h = .ok (m', r) →
    m.length ≤ m'.length ∧
    (∀ p, p < m.length → m'.get? p = m.get? p) ∧
    SRegion m.length m' ∧ optGe m.length r := by
  induction fuel with
  | zero =>
    intro m h m' r hc
    rcases h with _ | p
    · simp only [skew_clone_m, Except.ok.injEq, Prod.mk.injEq] at hc
      obtain ⟨h1, h2⟩ := hc
      subst h1; subst h2
      exact ⟨Nat.le_refl _, fun p _ => rfl, Region_of_le (Nat.le_refl _), trivial⟩
    · simp [skew_clone_m] at hc
  | succ f ih =>
    intro m h m' r hc
    rcases h with _ | p
    · simp only [skew_clone_m, Except.ok.injEq, Prod.mk.injEq] at hc
      obtain ⟨h1, h2⟩ := hc
      subst h1; subst h2
      exact ⟨Nat.le_refl _, fun p _ => rfl, Region_of_le (Nat.le_refl _), trivial⟩
    · simp only [skew_clone_m, bind_ok_iff, Except.ok.injEq, Prod.mk.injEq] at hc
      obtain ⟨nh, hnh, nh1, hnh1, rl, hrl, nq1, hnq1, nh2, hnh2, rr, hrr,
        nq2, hnq2, hm', hr⟩ := hc
      subst hm'; subst hr
      obtain ⟨hlen_l, hfr_l, hreg_l, hge_l⟩ := ih _ _ _ _ hrl
      obtain ⟨hlen_r, hfr_r, hreg_r, hge_r⟩ := ih _ _ _ _ hrr
      simp only [sset, List.length_set, List.length_append, List.length_cons,
        List.length_nil] at hlen_l hlen_r hfr_l hfr_r hreg_l hreg_r hge_l hge_r ⊢
      have h1len : m.length + 1 ≤ rl.1.length := hlen_l
      have h2len : rl.1.length ≤ rr.1.length := hlen_r
      have hregM1 : SRegion m.length
          (m ++ [some { key := nh.key, left := none, right := none }]) :=
        Region_append (Region_of_le (Nat.le_refl _)) trivial trivial
      have hregRL : SRegion m.length rl.1 :=
        Region_combine (Nat.le_succ _) hregM1 hreg_l hfr_l
      have hq1 := hregRL m.length nq1 (Nat.le_refl _) (sget_ok_iff.mp hnq1)
      have hregM2 : SRegion m.length (rl.1.set m.length (some { nq1 with left := rl.2 })) :=
        Region_set hregRL (optGe_mono (Nat.le_succ _) hge_l) hq1.2
      have hregRR : SRegion m.length rr.1 :=
        Region_combine (le_trans (Nat.le_succ _) h1len) hregM2 hreg_r hfr_r
      have hq2 := hregRR m.length nq2 (Nat.le_refl _) (sget_ok_iff.mp hnq2)
      refine ⟨?_, ?_, ?_, Nat.le_refl _⟩
      · exact le_trans (Nat.le_succ _) (le_trans h1len h2len)
      · intro p hp
        have hne : m.length ≠ p := (Nat.ne_of_lt hp).symm
        rw [List.get?_set_ne _ _ hne]
        rw [hfr_r p (lt_of_lt_of_le hp (le_trans (Nat.le_succ _) h1len))]
        rw [List.get?_set_ne _ _ hne]
        rw [hfr_l p (lt_of_lt_of_le hp (Nat.le_succ _))]
        exact List.get?_append hp
      · exact Region_set hregRR hq2.1 (optGe_mono (le_trans (Nat.le_succ _) h1len) hge_r)

/-- The destructive `leftist_merge`, run on roots inside a child-closed
region of addresses `≥ N`, writes only inside that region: cells below
`N` keep their contents, the region stays child-closed, and the result
root stays inside it. -/
theorem leftist_merge_m_frame (fuel : Nat) :
    ∀ (N : Nat) (m : LMem) (a b : Option Nat) (m' : LMem) (r : Option Nat),
    LRegion N m → optGe N a → optGe N b →
    leftist_merge_m fuel m a b = .ok (m', r) →
    (∀ p, p < N → m'.get? p = m.get? p) ∧ LRegion N m' ∧ optGe N r := by
  induction fuel with
  | zero =>
    intro N m a b m' r hreg ha hb hc
    rcases a with _ | pa
    · simp only [leftist_merge_m, Except.ok.injEq, Prod.mk.injEq] at hc
      obtain ⟨h1, h2⟩ := hc
      subst h1; subst h2
      exact ⟨fun p _ => rfl, hreg, hb⟩
    · rcases b with _ | pb
      · simp only [leftist_merge_m, Except.ok.injEq, Prod.mk.injEq] at hc
        obtain ⟨h1, h2⟩ := hc
        subst h1; subst h2
        exact ⟨fun p _ => rfl, hreg, ha⟩
      · simp [leftist_merge_m] at hc
  | succ f ih =>
    intro N m a b m' r hreg ha hb hc
    rcases a with _ | pa
    · simp only [leftist_merge_m, Except.ok.injEq, Prod.mk.injEq] at hc
      obtain ⟨h1, h2⟩ := hc
      subst h1; subst h2
      exact ⟨fun p _ => rfl, hreg, hb⟩
    · rcases b with _ | pb
      · simp only [leftist_merge_m, Except.ok.injEq, Prod.mk.injEq] at hc
        obtain ⟨h1, h2⟩ := hc
        subst h1; subst h2
        exact ⟨fun p _ => rfl, hreg, ha⟩
      · simp only [leftist_merge_m, bind_ok_iff, Except.ok.injEq, Prod.mk.injEq] at hc
        obtain ⟨na, hna, nb, hnb, hc⟩ := hc
        obtain ⟨x, y, hxy, hx, hy⟩ :
            ∃ x y, (if nb.key < na.key then (pb, pa) else (pa, pb)) = (x, y) ∧
              N ≤ x ∧ N ≤ y := by
          by_cases hk : nb.key < na.key
          · exact ⟨pb, pa, if_pos hk, hb, ha⟩
          · exact ⟨pa, pb, if_neg hk, ha, hb⟩
        have hx1 : (if nb.key < na.key then (pb, pa) else (pa, pb)).1 = x := by rw [hxy]
        have hy1 : (if nb.key < na.key then (pb, pa) else (pa, pb)).2 = y := by rw [hxy]
        rw [hx1, hy1] at hc
        obtain ⟨na1, hna1, r0, hr0, na2, hna2, na3, hna3, nl, hnl, nr, hnr,
          na4, hna4, nr2, hnr2, hm', hr⟩ := hc
        subst hm'; subst hr
        obtain ⟨hfr0, hreg0, hge0⟩ :=
          ih N m na1.right (some y) r0.1 r0.2 hreg
            (hreg x na1 hx (lget_ok_iff.mp hna1)).2 hy hr0
        have hq2 := hreg0 x na2 hx (lget_ok_iff.mp hna2)
        have hregm1 : LRegion N (lset r0.1 x { na2 with right := r0.2 }) :=
          Region_set hreg0 hq2.1 hge0
        have hq3 := hregm1 x na3 hx (lget_ok_iff.mp hna3)
        have hswap : LRegion N (if nl < nr then
              lset (lset r0.1 x { na2 with right := r0.2 }) x
                { na3 with left := na3.right, right := na3.left }
            else lset r0.1 x { na2 with right := r0.2 }) ∧
            (∀ p, p < N → (if nl < nr then
              lset (lset r0.1 x { na2 with right := r0.2 }) x
                { na3 with left := na3.right, right := na3.left }
            else lset r0.1 x { na2 with right := r0.2 }).get? p
              = (lset r0.1 x { na2 with right := r0.2 }).get? p) := by
          split
          · exact ⟨Region_set hregm1 hq3.2 hq3.1, fun p hp =>
              List.get?_set_ne _ _ (Nat.ne_of_lt (lt_of_lt_of_le hp hx)).symm⟩
          · exact ⟨hregm1, fun p _ => rfl⟩
        have hq4 := hswap.1 x na4 hx (lget_ok_iff.mp hna4)
        refine ⟨?_, Region_set hswap.1 hq4.1 hq4.2, hx⟩
        intro p hp
        have hne : x ≠ p := (Nat.ne_of_lt (lt_of_lt_of_le hp hx)).symm
        rw [lset_get?_ne hne, hswap.2 p hp, lset_get?_ne hne, hfr0 p hp]

/-- Same frame statement for the destructive `skew_merge`. -/
theorem skew_merge_m_frame (fuel : Nat) :
    ∀ (N : Nat) (m : SMem) (a b : Option Nat) (m' : SMem) (r : Option Nat),
    SRegion N m → optGe N a → optGe N b →
    skew_merge_m fuel m a b = .ok (m', r) →
    (∀ p, p < N → m'.get? p = m.get? p) ∧ SRegion N m' ∧ optGe N r := by
  induction fuel with
  | zero =>
    intro N m a b m' r hreg ha hb hc
    rcases a with _ | pa
    · simp only [skew_merge_m, Except.ok.injEq, Prod.mk.injEq] at hc
      obtain ⟨h1, h2⟩ := hc
      subst h1; subst h2
      exact ⟨fun p _ => rfl, hreg, hb⟩
    · rcases b with _ | pb
      · simp only [skew_merge_m, Except.ok.injEq, Prod.mk.injEq] at hc
        obtain ⟨h1, h2⟩ := hc
        subst h1; subst h2
        exact ⟨fun p _ => rfl, hreg, ha⟩
      · simp [skew_merge_m] at hc
  | succ f ih =>
    intro N m a b m' r hreg ha hb hc
    rcases a with _ | pa
    · simp only [skew_merge_m, Except.ok.injEq, Prod.mk.injEq] at hc
      obtain ⟨h1, h2⟩ := hc
      subst h1; subst h2
      exact ⟨fun p _ => rfl, hreg, hb⟩
    · rcases b with _ | pb
      · simp only [skew_merge_m, Except.ok.injEq, Prod.mk.injEq] at hc
        obtain ⟨h1, h2⟩ := hc
        subst h1; subst h2
        exact ⟨fun p _ => rfl, hreg, ha⟩
      · simp only [skew_merge_m, bind_ok_iff, Except.ok.injEq, Prod.mk.injEq] at hc
        obtain ⟨na, hna, nb, hnb, hc⟩ := hc
        obtain ⟨x, y, hxy, hx, hy⟩ :
            ∃ x y, (if nb.key < na.key then (pb, pa) else (pa, pb)) = (x, y) ∧
              N ≤ x ∧ N ≤ y := by
          by_cases hk : nb.key < na.key
          · exact ⟨pb, pa, if_pos hk, hb, ha⟩
          · exact ⟨pa, pb, if_neg hk, ha, hb⟩
        have hx1 : (if nb.key < na.key then (pb, pa) else (pa, pb)).1 = x := by rw [hxy]
        have hy1 : (if nb.key < na.key then (pb, pa) else (pa, pb)).2 = y := by rw [hxy]
        rw [hx1, hy1] at hc
        obtain ⟨na1, hna1, r0, hr0, na2, hna2, na3, hna3, hm', hr⟩ := hc
        subst hm'; subst hr
        obtain ⟨hfr0, hreg0, hge0⟩ :=
          ih N m na1.right (some y) r0.1 r0.2 hreg
            (hreg x na1 hx (sget_ok_iff.mp hna1)).2 hy hr0
        have hq2 := hreg0 x na2 hx (sget_ok_iff.mp hna2)
        have hregm1 : SRegion N (sset r0.1 x { na2 with right := r0.2 }) :=
          Region_set hreg0 hq2.1 hge0
        have hq3 := hregm1 x na3 hx (sget_ok_iff.mp hna3)
        refine ⟨?_, Region_set hregm1 hq3.2 hq3.1, hx⟩
        intro p hp
        have hne : x ≠ p := (Nat.ne_of_lt (lt_of_lt_of_le hp hx)).symm
        rw [sset_get?_ne hne, sset_get?_ne hne, hfr0 p hp]

/-- `leftist_merge_persistent` leaves every pre-existing cell — in
particular every node of both input trees — untouched, and its result
lives entirely in fresh cells: no node of either input is reachable
from the returned root. -/
theorem leftist_merge_persistent_m_frame (fuel : Nat) (m : LMem) (a b : Option Nat)
    (m' : LMem) (r : Option Nat)
    (hc : leftist_merge_persistent_m fuel m a b = .ok (m', r)) :
    (∀ p, p < m.length → m'.get? p = m.get? p) ∧
    LRegion m.length m' ∧ optGe m.length r := by
  simp only [leftist_merge_persistent_m, bind_ok_iff] at hc
  obtain ⟨ra, hra, rb, hrb, hm⟩ := hc
  obtain ⟨hlen1, hfr1, hreg1, hge1⟩ := leftist_clone_m_frame fuel m a ra.1 ra.2 hra
  obtain ⟨hlen2, hfr2, hreg2, hge2⟩ := leftist_clone_m_frame fuel ra.1 b rb.1 rb.2 hrb
  have hreg12 : LRegion m.length rb.1 := Region_combine hlen1 hreg1 hreg2 hfr2
  obtain ⟨hfr3, hreg3, hge3⟩ :=
    leftist_merge_m_frame fuel m.length rb.1 ra.2 rb.2 m' r hreg12
      hge1 (optGe_mono hlen1 hge2) hm
  refine ⟨?_, hreg3, hge3⟩
  intro p hp
  rw [hfr3 p hp, hfr2 p (lt_of_lt_of_le hp hlen1), hfr1 p hp]

/-- Same statement for `skew_merge_persistent`. -/
theorem skew_merge_persistent_m_frame (fuel : Nat) (m : SMem) (a b : Option Nat)
    (m' : SMem) (r : Option Nat)
    (hc : skew_merge_persistent_m fuel m a b = .ok (m', r)) :
    (∀ p, p < m.length → m'.get? p = m.get? p) ∧
    SRegion m.length m' ∧ optGe m.length r := by
  simp only [skew_merge_persistent_m, bind_ok_iff] at hc
  obtain ⟨ra, hra, rb, hrb, hm⟩ := hc
  obtain ⟨hlen1, hfr1, hreg1, hge1⟩ := skew_clone_m_frame fuel m a ra.1 ra.2 hra
  obtain ⟨hlen2, hfr2, hreg2, hge2⟩ := skew_clone_m_frame fuel ra.1 b rb.1 rb.2 hrb
  have hreg12 : SRegion m.length rb.1 := Region_combine hlen1 hreg1 hreg2 hfr2
  obtain ⟨hfr3, hreg3, hge3⟩ :=
    skew_merge_m_frame fuel m.length rb.1 ra.2 rb.2 m' r hreg12
      hge1 (optGe_mono hlen1 hge2) hm
  refine ⟨?_, hreg3, hge3⟩
  intro p hp
  rw [hfr3 p hp, hfr2 p (lt_of_lt_of_le hp hlen1), hfr1 p hp]

/-- `heap_merge` on the heap store: the result is a fresh heap appended
to the store and both input heaps keep their index entries — buffer,
size and ordering flag — unchanged. -/
theorem heap_merge_st_frame (s : List ArrayHeap) (i j : Nat) (s' : List ArrayHeap)
    (k : Nat) (h : heap_merge_st s i j = .ok (s', k)) :
    (∀ p, p < s.length → s'.get? p = s.get? p) ∧ k = s.length := by
  cases hi : s[i]? with
  | none => simp [heap_merge_st, hi] at h
  | some a =>
    cases hj : s[j]? with
    | none => simp [heap_merge_st, hi, hj] at h
    | some b =>
      simp only [heap_merge_st, List.get?_eq_getElem?, hi, hj] at h
      by_cases hab : a.is_min = b.is_min
      · rw [if_pos hab] at h
        simp only [Except.ok.injEq, Prod.mk.injEq] at h
        obtain ⟨h1, h2⟩ := h
        subst h1; subst h2
        exact ⟨fun p hp => List.get?_append hp, rfl⟩
      · rw [if_neg hab] at h
        exact Except.noConfusion h

/-! ## Claim theorems -/

/-- C3 counterexample: the claim fails for the treap.  Inserting key `1`
twice (with whatever priorities `rand()` returns — here 5 then 3;
the key sequence is priority-independent) leaves two copies of the key,
so the in-order traversal `[1, 1]` is not strictly ascending:
`treap_insert` splits at the key and re-inserts a fresh node even when
the key is already present. -/
theorem C3_counterexample_treap_duplicate :
    tkeys (treap_insert (treap_insert Treap.nil 1 5) 1 3) = [1, 1] ∧
    ¬ List.Sorted (· < ·) (tkeys (treap_insert (treap_insert Treap.nil 1 5) 1 3)) := by
  have h : tkeys (treap_insert (treap_insert Treap.nil 1 5) 1 3) = [1, 1] := by
    simp [treap_insert, treap_split, treap_merge, tkeys]
  refine ⟨h, ?_⟩
  rw [h]
  decide

/-- C3 (amended): after every finite sequence of insert/delete operations
starting from the empty tree, the in-order traversal of an OrderedTree
(`bst_insert`/`bst_delete`, which ignore duplicate keys) is strictly
ascending; for the Treap (`treap_insert`/`treap_remove`, where inserting
a present key adds a second copy) the in-order traversal is
non-decreasing, with strict ascent only guaranteed when no duplicate key
is ever inserted. -/
theorem C3_inorder_sorted (opsB : List BstOp) (opsT : List TreapOp) :
    List.Sorted (· < ·) (bkeys (bstRun opsB)) ∧
    List.Sorted (· ≤ ·) (tkeys (treapRun opsT)) :=
  ⟨sorted_bkeys (IsSBT_bstRun opsB), sorted_le_tkeys (TB_treapRun opsT)⟩

/-- C6: for every pair of valid leftist heaps (min-heap ordered, stored
npl fields correct, leftist property), the tree returned by
`leftist_merge` satisfies, at every node, `npl left >= npl right` and
`npl = 1 + min (npl left) (npl right)` (with npl of an absent child
= -1); the invariant is preserved by `leftist_insert` and
`leftist_delete_min` as well. -/
theorem C6_leftist_npl_invariant (a b : LTree)
    (ha : LHeap a ∧ LValid a) (hb : LHeap b ∧ LValid b) :
    LValid (leftist_merge a b) ∧
    (∀ key : Int, LValid (leftist_insert a key)) ∧
    (∀ t', leftist_delete_min a = Except.ok t' → LValid t') := by
  refine ⟨LValid_leftist_merge a b ha.2 hb.2, ?_, ?_⟩
  · intro key
    exact LValid_leftist_merge a (.node key 0 .nil .nil) ha.2
      ⟨by norm_num [npl], by norm_num [npl], trivial, trivial⟩
  · intro t' ht
    cases a with
    | nil => simp [leftist_delete_min] at ht
    | node k np l r =>
      simp only [leftist_delete_min, Except.ok.injEq] at ht
      subst ht
      obtain ⟨_, _, vl, vr⟩ := ha.2
      exact LValid_leftist_merge l r vl vr

theorem C6_witness :
    LValid (leftist_merge (LTree.node 1 0 LTree.nil LTree.nil)
      (LTree.node 2 0 LTree.nil LTree.nil)) :=
  (C6_leftist_npl_invariant _ _ ⟨by decide, by decide⟩ ⟨by decide, by decide⟩).1

/-- C7: for every valid treap (strict BST order on keys, max-heap order
on priorities) and every key, `treap_split` produces a left part whose
keys are all `< key` and a right part whose keys are all `>= key`; the
two parts together carry exactly the keys of the input (even as a list
equality of the in-order sequences, hence as multisets), and both parts
are again valid treaps. -/
theorem C7_treap_split_correct (t : Treap) (key : Int)
    (hbst : TSBT t) (hheap : MaxHeapT t) :
    (∀ y ∈ tkeys (treap_split t key).1, y < key) ∧
    (∀ y ∈ tkeys (treap_split t key).2, key ≤ y) ∧
    tkeys (treap_split t key).1 ++ tkeys (treap_split t key).2 = tkeys t ∧
    TSBT (treap_split t key).1 ∧ TSBT (treap_split t key).2 ∧
    MaxHeapT (treap_split t key).1 ∧ MaxHeapT (treap_split t key).2 := by
  have hb := treap_split_bounds t key hbst.toTB
  have hs := TSBT_treap_split t key hbst
  have hm := MaxHeapT_treap_split t key hheap
  exact ⟨hb.1, hb.2, tkeys_split t key, hs.1, hs.2, hm.1, hm.2⟩

theorem C7_witness :
    tkeys (treap_split (Treap.node 2 10 (Treap.node 1 5 Treap.nil Treap.nil)
        (Treap.node 3 7 Treap.nil Treap.nil)) 2).1 ++
      tkeys (treap_split (Treap.node 2 10 (Treap.node 1 5 Treap.nil Treap.nil)
        (Treap.node 3 7 Treap.nil Treap.nil)) 2).2 =
      tkeys (Treap.node 2 10 (Treap.node 1 5 Treap.nil Treap.nil)
        (Treap.node 3 7 Treap.nil Treap.nil)) :=
  (C7_treap_split_correct _ 2 (by decide) (by decide)).2.2.1

/-- C10: the recursive and the iterative BST search agree on every tree
and key — they return the same node (the same subtree, `nil` for the C
`NULL` result), and a non-`NULL` result always holds the searched key. -/
theorem C10_bst_search_agreement (root : Node) (key : Int) :
    bst_search_recursive root key = bst_search_iterative root key ∧
    (match bst_search_recursive root key with
     | .nil => True
     | .node k _ _ => k = key) := by
  induction root with
  | nil => exact ⟨rfl, trivial⟩
  | node k l r ihl ihr =>
    unfold bst_search_recursive bst_search_iterative
    split_ifs with h1 h2
    · exact ⟨rfl, h1⟩
    · exact ihl
    · exact ihr

/-- C8: merging two non-empty ArrayHeaps configured with opposite
min/max ordering trips the
`assert(a->is_min == b->is_min && "Heaps must be of same type to merge")`
in both `heap_merge` and `heap_merge_destroy` — a loud abort, not a
silently inconsistent heap. -/
theorem C8_incompatible_merge_asserts (a b : ArrayHeap)
    (hna : 0 < a.data.length) (hnb : 0 < b.data.length)
    (hmix : a.is_min ≠ b.is_min) :
    heap_merge (some a) (some b) = .error .assertFail ∧
    heap_merge_destroy (some a) (some b) = .error .assertFail := by
  constructor <;> simp [heap_merge, heap_merge_destroy, hmix]

theorem C8_witness :
    heap_merge (some (ArrayHeap.mk [1] true)) (some (ArrayHeap.mk [2] false))
        = .error .assertFail ∧
      heap_merge_destroy (some (ArrayHeap.mk [1] true)) (some (ArrayHeap.mk [2] false))
        = .error .assertFail :=
  C8_incompatible_merge_asserts _ _ (by decide) (by decide) (by decide)

theorem bget_memAfter12_0 :
    bget memAfter12 0
      = .ok { key := 1, degree := 1, parent := none, child := some 1, sibling := some 1 } :=
  rfl

theorem bget_memSelfLoop_1 :
    bget memSelfLoop 1
      = .ok { key := 2, degree := 0, parent := none, child := none, sibling := some 1 } :=
  rfl

/-- The minimum scan of the first `binomial_delete_min` on `memAfter12`
finds root 0 with no predecessor. -/
theorem bdm_scan_mem12 (f : Nat) :
    bdm_scan (f+1) memAfter12 0 0 none = .ok (0, none) := by
  simp [bdm_scan, bget, memAfter12, bindE_ok, bindE_error]

/-- Reversing node 0's child list (just node 1) clears node 1's parent
and sibling, producing `memMid` with the reversed list headed by 1. -/
theorem bdm_reverse_mem12 (f : Nat) :
    bdm_reverse (f+1) memAfter12 (some 1) none = .ok (memMid, some 1) := by
  simp [bdm_reverse, bget, bset, memAfter12, memMid, bindE_ok, bindE_error]

/-- Merging the root list `{node 1}` with the reversed child list
`{node 1}` in `memMid` ties node 1's sibling to itself: `memSelfLoop`. -/
theorem mr_loop_memMid (f : Nat) :
    mr_loop (f+1) memMid none Loc.head (some 1) (some 1)
      = .ok (memSelfLoop, some 1) := by
  simp [mr_loop, writeLoc, bget, bset, memMid, memSelfLoop, bindE_ok, bindE_error]

/-- On `memSelfLoop` the consolidation loop of `binomial_merge` is stuck
on the self-referential root list `node 1 → node 1` (the advance branch
fires forever without writing memory), for every fuel. -/
theorem bm_loop_selfLoop_diverges (fuel : Nat) :
    ∀ prev, bm_loop fuel memSelfLoop (some 1) prev 1 (some 1) = .error .fuelOut := by
  induction fuel with
  | zero => intro prev; rfl
  | succ f ih => intro prev; exact ih (some 1)

/-- `binomial_merge` of head 1 with head 1 in `memMid` builds the
self-looping root list and then consolidates forever. -/
theorem binomial_merge_memMid (f : Nat) :
    binomial_merge (f+1) memMid (some 1) (some 1) = .error .fuelOut := by
  simp only [binomial_merge, merge_roots, mr_loop_memMid, bindE_ok, bindE_error,
    bget_memSelfLoop_1]
  exact bm_loop_selfLoop_diverges (f+1) none

/-- The first `binomial_delete_min` on the heap built by
`insert 1; insert 2` never terminates: unlinking the minimum root 0
leaves node 1 (which is also node 0's child) as the new head, the
root-list merge of `{node 1}` with the reversed child list `{node 1}`
ties `node 1`'s sibling pointer to itself, and the consolidation loop
then advances over the self-loop forever. -/
theorem binomial_delete_min_memAfter12_diverges (fuel : Nat) :
    binomial_delete_min fuel memAfter12 (some 0) = .error .fuelOut := by
  match fuel with
  | 0 => rfl
  | f+1 =>
    simp only [binomial_delete_min, bdm_scan_mem12, bget_memAfter12_0,
      bdm_reverse_mem12, binomial_merge_memMid, bindE_ok, bindE_error]

/-- `binomial_find_min` on `memAfter12` reports the key 1 of root 0. -/
theorem find_min_mem12 (f : Nat) :
    binomial_find_min (f+2) memAfter12 (some 0) = .ok 1 := by
  simp [binomial_find_min, bfm_loop, bget, memAfter12, bindE_ok, bindE_error]

/-- The full drain of the heap built by `insert 1; insert 2` runs out of
fuel for every fuel: its first `binomial_delete_min` diverges. -/
theorem binomial_drain_memAfter12_diverges (fuel : Nat) :
    binomial_drain fuel memAfter12 (some 0) = .error .fuelOut := by
  match fuel with
  | 0 => rfl
  | 1 => rfl
  | 2 => rfl
  | f+3 =>
    simp only [binomial_drain, find_min_mem12, binomial_delete_min_memAfter12_diverges,
      bindE_ok, bindE_error]

/-- C1 fails on the code for the BinomialHeap: inserting `1` then `2`
into the empty heap reaches `memAfter12` (first conjunct, a concrete run
of the insert path with ample fuel), and from that state the repeated
delete-min drain never terminates — for every fuel it runs out instead
of producing the sorted sequence `[1, 2]`.  The root cause is the
consolidation loop of `binomial_merge`: after `binomial_link` keeps
`curr` in place, `curr->sibling` still points at the node that just
became a child, so the linked node stays on the root list and the next
delete-min builds a self-looping root list. -/
theorem C1_binomial_drain_never_terminates :
    binomial_run 9 [1, 2] = .ok (memAfter12, some 0) ∧
    ∀ fuel : Nat, binomial_drain fuel memAfter12 (some 0) = .error .fuelOut :=
  ⟨rfl, binomial_drain_memAfter12_diverges⟩

/-- C2 fails on the code for `binomial_merge`: merging two valid
singleton binomial heaps (keys 1 and 2, both degree 0) yields
`memAfter12`, whose full delete-min drain never terminates — so no
finite drain observes the required `1 + 1 = 2` elements. -/
theorem C2_binomial_merge_size_unobservable :
    binomial_merge 9 twoSingletonMem (some 0) (some 1) = .ok (memAfter12, some 0) ∧
    ∀ fuel : Nat, binomial_drain fuel memAfter12 (some 0) = .error .fuelOut :=
  ⟨rfl, binomial_drain_memAfter12_diverges⟩

/-- C4 on empty instances: `heap_peek`/`heap_pop` on an empty ArrayHeap,
`leftist_find_min`/`leftist_delete_min`, `skew_find_min`/
`skew_delete_min` on empty heaps and `binomial_find_min` on an empty
root list all fail loudly through `assert` — but `binomial_delete_min`
performs no check at all and dereferences the `NULL` head (undefined
behaviour), contradicting the stated fail-loudly policy. -/
theorem C4_empty_structure_checks (m : BMem) (fuel : Nat) (is_min : Bool) :
    binomial_delete_min fuel m none = .error .nullDeref ∧
    binomial_find_min fuel m none = .error .assertFail ∧
    heap_peek (heap_create is_min) = .error .assertFail ∧
    heap_pop (heap_create is_min) = .error .assertFail ∧
    leftist_find_min .nil = .error .assertFail ∧
    leftist_delete_min .nil = .error .assertFail ∧
    skew_find_min .nil = .error .assertFail ∧
    skew_delete_min .nil = .error .assertFail :=
  ⟨rfl, rfl, rfl, rfl, rfl, rfl, rfl, rfl⟩

/-- C5 fails on the code: after `insert 1; insert 2; insert 3` on the
empty heap (first conjunct, a concrete run of the insert path) the root
sibling chain has degrees `[0, 1, 0]` — a duplicated degree and not
ascending — because the degree-0 node linked under the degree-1 root
was never removed from the root list by `binomial_merge`'s
consolidation. -/
theorem C5_binomial_root_degrees_broken :
    binomial_run 9 [1, 2, 3] = .ok (mem123, some 2) ∧
    rootDegrees 9 mem123 (some 2) = .ok [0, 1, 0] ∧
    ¬ List.Sorted (· < ·) [0, 1, 0] ∧ ¬ ([0, 1, 0] : List Nat).Nodup :=
  ⟨rfl, rfl, by decide, by decide⟩

/-- C9: the non-destructive merge variants leave both inputs unchanged.
`heap_merge` (on a store of live ArrayHeaps) appends a fresh result heap
and every pre-existing store entry — buffer, size and ordering flag —
keeps its contents; `leftist_merge_persistent` and
`skew_merge_persistent` clone both inputs before running the destructive
merge on the clones, so every pre-existing memory cell (in particular
every node of either input tree: keys, shape and for leftist heaps the
`npl` fields) is unchanged, and the result lives in a child-closed
region of fresh cells with a fresh (or `NULL`) root — the returned tree
shares no node with either input. -/
theorem C9_persistent_merge_frame
    (s : List ArrayHeap) (i j : Nat) (s' : List ArrayHeap) (k : Nat)
    (lfuel : Nat) (lm : LMem) (la lb : Option Nat) (lm' : LMem) (lr : Option Nat)
    (sfuel : Nat) (sm : SMem) (sa sb : Option Nat) (sm' : SMem) (sr : Option Nat)
    (hh : heap_merge_st s i j = .ok (s', k))
    (hl : leftist_merge_persistent_m lfuel lm la lb = .ok (lm', lr))
    (hs : skew_merge_persistent_m sfuel sm sa sb = .ok (sm', sr)) :
    ((∀ p, p < s.length → s'.get? p = s.get? p) ∧ k = s.length) ∧
    ((∀ p, p < lm.length → lm'.get? p = lm.get? p) ∧
      LRegion lm.length lm' ∧ optGe lm.length lr) ∧
    ((∀ p, p < sm.length → sm'.get? p = sm.get? p) ∧
      SRegion sm.length sm' ∧ optGe sm.length sr) :=
  ⟨heap_merge_st_frame s i j s' k hh,
   leftist_merge_persistent_m_frame lfuel lm la lb lm' lr hl,
   skew_merge_persistent_m_frame sfuel sm sa sb sm' sr hs⟩

theorem C9_witness :
    ((∀ p, p < 2 →
        ([ArrayHeap.mk [1] true, ArrayHeap.mk [] true, ArrayHeap.mk [1] true]
            : List ArrayHeap).get? p
          = ([ArrayHeap.mk [1] true, ArrayHeap.mk [] true] : List ArrayHeap).get? p) ∧
      2 = 2) ∧
    ((∀ p, p < 2 →
        ([some (LNodeM.mk 1 0 none none), some (LNodeM.mk 2 0 none none),
          some (LNodeM.mk 1 0 (some 3) none), some (LNodeM.mk 2 0 none none)] : LMem).get? p
          = ([some (LNodeM.mk 1 0 none none), some (LNodeM.mk 2 0 none none)] : LMem).get? p) ∧
      LRegion 2 [some (LNodeM.mk 1 0 none none), some (LNodeM.mk 2 0 none none),
        some (LNodeM.mk 1 0 (some 3) none), some (LNodeM.mk 2 0 none none)] ∧
      optGe 2 (some 2)) ∧
    ((∀ p, p < 2 →
        ([some (SNodeM.mk 1 none none), some (SNodeM.mk 2 none none),
          some (SNodeM.mk 1 (some 3) none), some (SNodeM.mk 2 none none)] : SMem).get? p
          = ([some (SNodeM.mk 1 none none), some (SNodeM.mk 2 none none)] : SMem).get? p) ∧
      SRegion 2 [some (SNodeM.mk 1 none none), some (SNodeM.mk 2 none none),
        some (SNodeM.mk 1 (some 3) none), some (SNodeM.mk 2 none none)] ∧
      optGe 2 (some 2)) :=
  C9_persistent_merge_frame
    [ArrayHeap.mk [1] true, ArrayHeap.mk [] true] 0 1
    [ArrayHeap.mk [1] true, ArrayHeap.mk [] true, ArrayHeap.mk [1] true] 2
    6 [some (LNodeM.mk 1 0 none none), some (LNodeM.mk 2 0 none none)] (some 0) (some 1)
    [some (LNodeM.mk 1 0 none none), some (LNodeM.mk 2 0 none none),
      some (LNodeM.mk 1 0 (some 3) none), some (LNodeM.mk 2 0 none none)] (some 2)
    6 [some (SNodeM.mk 1 none none), some (SNodeM.mk 2 none none)] (some 0) (some 1)
    [some (SNodeM.mk 1 none none), some (SNodeM.mk 2 none none),
      some (SNodeM.mk 1 (some 3) none), some (SNodeM.mk 2 none none)] (some 2)
    rfl rfl rfl

end Algo
